import Mathlib

/-!
Association lists of libguile (`libguile/alist.c`) over an explicit heap

The C code works on `SCM` words.  A word is either an immediate (`#f`, `()`,
`#nil`, fixnums, ...) or a pointer to a heap cell.  `eq?` (`scm_is_eq`) is
equality of words, so two pairs are `eq?` exactly when they are the same
cell.  `set-cdr!` mutates a cell in place.  The heap is therefore modelled
explicitly and threaded through every operation that allocates or mutates.

Loops that walk a list (`for (; scm_is_pair (ls); ls = SCM_CDR (ls))`) do not
terminate on circular lists; they take a fuel argument that bounds the number
of times the loop condition is evaluated.
-/

namespace Guile

/-- Modelled from the spec: the type `SCM` of `scm.h`, which is not among the
sources.  A word is one of the three immediates `alist.c` tests for
(`SCM_BOOL_F`, `SCM_EOL`, `SCM_ELISP_NIL`), any other immediate, or a pointer to
the heap cell at address `addr`. -/
inductive SCM where
  | bool_f
  | eol
  | elisp_nil
  | imm (n : Nat)
  | obj (addr : Nat)
  deriving DecidableEq

/-- A heap cell: a pair with its two fields, or any other heap object
(string, vector, ...), of which only the fact that it is not a pair matters. -/
inductive Cell where
  | pair (car cdr : SCM)
  | other (tag : Nat)
  deriving DecidableEq

/-- The heap: cell `a` lives at index `a`. -/
abbrev Heap := List Cell

/-- Outcome of a call: a value, a `wrong-type-arg` error raised by
`SCM_ASSERT_TYPE`, or fuel exhausted (the C loop is still running). -/
inductive Res (α : Type) where
  | ok (v : α)
  | wrong_type_arg
  | out_of_fuel
  deriving DecidableEq

/-- Modelled from the spec: the macro `scm_is_eq (x, y)` of `scm.h`, which is not
among the sources: equality of the two words. -/
def scm_is_eq (x y : SCM) : Bool := decide (x = y)

/-- Modelled from the spec: the macro `SCM_NULL_OR_NIL_P (x)` of `boolean.h`,
which is not among the sources: `x` is `()` or `#nil`. -/
def SCM_NULL_OR_NIL_P (x : SCM) : Bool :=
  match x with
  | SCM.eol => true
  | SCM.elisp_nil => true
  | _ => false

/-- Modelled from the spec: the pair accessors of `pairs.h`, which is not among
the sources.  The two fields of `x` when `x` points to a pair cell, `none`
otherwise: `scm_is_pair (x)` together with `SCM_CAR (x)` and `SCM_CDR (x)`. -/
def pair_fields (h : Heap) (x : SCM) : Option (SCM × SCM) :=
  match x with
  | SCM.obj a =>
    match h[a]? with
    | some (Cell.pair x1 x2) => some (x1, x2)
    | _ => none
  | _ => none

/-- Modelled from the spec: `scm_is_pair (x)` of `pairs.h`, which is not among the
sources: `x` points to a pair cell. -/
def scm_is_pair (h : Heap) (x : SCM) : Bool := (pair_fields h x).isSome

/-- Modelled from the spec: the macro `SCM_CAR (x)` of `pairs.h`, which is not
among the sources; defined only on pairs. -/
def SCM_CAR (h : Heap) (x : SCM) : Option SCM := (pair_fields h x).map Prod.fst

/-- Modelled from the spec: the macro `SCM_CDR (x)` of `pairs.h`, which is not
among the sources; defined only on pairs. -/
def SCM_CDR (h : Heap) (x : SCM) : Option SCM := (pair_fields h x).map Prod.snd

/-- Modelled from the spec: `scm_cons (x, y)` of `pairs.h`, which is not among the
sources: allocate a fresh pair cell, here at the end of the heap. -/
def scm_cons (h : Heap) (x y : SCM) : Heap × SCM :=
  (h ++ [Cell.pair x y], SCM.obj h.length)

/-- Modelled from the spec: `scm_set_cdr_x (pair, value)` (`set-cdr!`) of
`pairs.c`, which is not among the sources: overwrite the cdr field of a pair
cell in place; a non-pair argument is a `wrong-type-arg` error. -/
def scm_set_cdr_x (h : Heap) (p val : SCM) : Res Heap :=
  match p with
  | SCM.obj a =>
    match h[a]? with
    | some (Cell.pair x1 _) => Res.ok (h.set a (Cell.pair x1 val))
    | _ => Res.wrong_type_arg
  | _ => Res.wrong_type_arg

/-- Embedding of `scm_acons (key, value, alist)`, alist.c lines 39-49:
`return scm_cons (scm_cons (key, value), alist);`. -/
def scm_acons (h : Heap) (key value alist : SCM) : Heap × SCM :=
  let r := scm_cons h key value
  scm_cons r.1 r.2 alist

/-- Embedding of `scm_sloppy_assq (key, alist)`, alist.c lines 53-67. -/
def scm_sloppy_assq : Nat → Heap → SCM → SCM → Res SCM
  | 0, _, _, _ => Res.out_of_fuel
  | fuel + 1, h, key, alist =>
    match pair_fields h alist with
    | some (tmp, rest) =>
      match pair_fields h tmp with
      | some (k, _) =>
        if scm_is_eq k key then Res.ok tmp
        else scm_sloppy_assq fuel h key rest
      | none => scm_sloppy_assq fuel h key rest
    | none => Res.ok SCM.bool_f

/-- Embedding of `scm_assq (key, alist)`, alist.c lines 118-144.  The loop variable is
`ls`; both `SCM_ASSERT_TYPE`s raise `wrong-type-arg`. -/
def scm_assq : Nat → Heap → SCM → SCM → Res SCM
  | 0, _, _, _ => Res.out_of_fuel
  | fuel + 1, h, key, ls =>
    match pair_fields h ls with
    | some (tmp, rest) =>
      match pair_fields h tmp with
      | none => Res.wrong_type_arg
      | some (k, _) =>
        if scm_is_eq k key then Res.ok tmp
        else scm_assq fuel h key rest
    | none =>
      if SCM_NULL_OR_NIL_P ls then Res.ok SCM.bool_f else Res.wrong_type_arg

/-- Embedding of `scm_assq_ref (alist, key)`, alist.c lines 214-237. -/
def scm_assq_ref (fuel : Nat) (h : Heap) (alist key : SCM) : Res SCM :=
  match scm_sloppy_assq fuel h key alist with
  | Res.ok handle =>
    match pair_fields h handle with
    | some (_, d) => Res.ok d
    | none => Res.ok SCM.bool_f
  | Res.wrong_type_arg => Res.wrong_type_arg
  | Res.out_of_fuel => Res.out_of_fuel

/-- Embedding of `scm_assq_set_x (alist, key, val)`, alist.c lines 278-302.  Returns the
heap after the call and the returned list. -/
def scm_assq_set_x (fuel : Nat) (h : Heap) (alist key val : SCM) : Res (Heap × SCM) :=
  match scm_sloppy_assq fuel h key alist with
  | Res.ok handle =>
    if scm_is_pair h handle then
      match scm_set_cdr_x h handle val with
      | Res.ok h1 => Res.ok (h1, alist)
      | Res.wrong_type_arg => Res.wrong_type_arg
      | Res.out_of_fuel => Res.out_of_fuel
    else Res.ok (scm_acons h key val alist)
  | Res.wrong_type_arg => Res.wrong_type_arg
  | Res.out_of_fuel => Res.out_of_fuel

/-- Modelled from the spec: the loop of `scm_delq1_x` (`delq1!`, defined in
`libguile/list.c`, which is not among the sources).  `prev` is the address of
the cell whose cdr field leads to `walk`; the first cell whose car is `eq?` to
`item` is unlinked by storing its cdr into the cdr field of `prev`. -/
def delq1_walk : Nat → Heap → SCM → Nat → SCM → Res Heap
  | 0, _, _, _, _ => Res.out_of_fuel
  | fuel + 1, h, item, prev, walk =>
    match walk, pair_fields h walk with
    | SCM.obj w, some (x, rest) =>
      if scm_is_eq x item then scm_set_cdr_x h (SCM.obj prev) rest
      else delq1_walk fuel h item w rest
    | _, _ => Res.ok h

/-- Modelled from the spec: `scm_delq1_x (item, lst)` (`delq1!`, defined in
`libguile/list.c`, which is not among the sources): delete, destructively, the
first element of `lst` that is `eq?` to `item` and return the resulting list.
When the first cell matches, the result is its cdr and nothing is mutated. -/
def scm_delq1_x (fuel : Nat) (h : Heap) (item lst : SCM) : Res (Heap × SCM) :=
  match fuel with
  | 0 => Res.out_of_fuel
  | fuel1 + 1 =>
    match lst, pair_fields h lst with
    | SCM.obj a, some (x, rest) =>
      if scm_is_eq x item then Res.ok (h, rest)
      else
        match delq1_walk fuel1 h item a rest with
        | Res.ok h1 => Res.ok (h1, lst)
        | Res.wrong_type_arg => Res.wrong_type_arg
        | Res.out_of_fuel => Res.out_of_fuel
    | _, _ => Res.ok (h, lst)

/-- Embedding of `scm_assq_remove_x (alist, key)`, alist.c lines 343-359.
Returns the heap after the call and the returned list. -/
def scm_assq_remove_x (fuel : Nat) (h : Heap) (alist key : SCM) : Res (Heap × SCM) :=
  match scm_sloppy_assq fuel h key alist with
  | Res.ok handle =>
    if scm_is_pair h handle then scm_delq1_x fuel h handle alist
    else Res.ok (h, alist)
  | Res.wrong_type_arg => Res.wrong_type_arg
  | Res.out_of_fuel => Res.out_of_fuel

/-- Modelled from the spec: the expression the docstring of `assq-ref` gives,
`(let ((ent (assq key alist))) (and ent (cdr ent)))`.  `and` returns `ent`
itself when it is false (`#f` or `#nil`); `cdr` of a non-pair is a
`wrong-type-arg` error. -/
def assq_ref_expr (fuel : Nat) (h : Heap) (key alist : SCM) : Res SCM :=
  match scm_assq fuel h key alist with
  | Res.ok ent =>
    if ent = SCM.bool_f ∨ ent = SCM.elisp_nil then Res.ok ent
    else
      match pair_fields h ent with
      | some (_, d) => Res.ok d
      | none => Res.wrong_type_arg
  | Res.wrong_type_arg => Res.wrong_type_arg
  | Res.out_of_fuel => Res.out_of_fuel

/-- In heap `h`, the word `x` is a proper list (ended by `()` or `#nil`) whose
successive spine cells and elements are the pairs `(address, element)` of
`sp`. -/
def is_list_of (h : Heap) : SCM → List (Nat × SCM) → Bool
  | x, [] => SCM_NULL_OR_NIL_P x
  | x, (a, e) :: sp =>
    match x, h[a]? with
    | SCM.obj b, some (Cell.pair e1 d) => decide (b = a) && decide (e1 = e) && is_list_of h d sp
    | _, _ => false

/-- A well-formed association list: a proper list all of whose elements are
pairs. -/
def well_formed_alist (h : Heap) (alist : SCM) (sp : List (Nat × SCM)) : Bool :=
  is_list_of h alist sp && sp.all (fun q => scm_is_pair h q.2)

/-- The first element of the list, in list order, whose car is `eq?` to
`key`. -/
def first_entry (h : Heap) (key : SCM) : List (Nat × SCM) → Option SCM
  | [] => none
  | (_, e) :: sp => if SCM_CAR h e = some key then some e else first_entry h key sp

/-! ## Concrete heaps used to exercise the definitions -/

/-- The list `((10 . 1) (20 . 2) (20 . 3))` at address 0: spine cells 0, 2, 4 and
entries 1, 3, 5. -/
def heap_three : Heap :=
  [Cell.pair (SCM.obj 1) (SCM.obj 2), Cell.pair (SCM.imm 10) (SCM.imm 1),
   Cell.pair (SCM.obj 3) (SCM.obj 4), Cell.pair (SCM.imm 20) (SCM.imm 2),
   Cell.pair (SCM.obj 5) SCM.eol, Cell.pair (SCM.imm 20) (SCM.imm 3)]

/-- Spine and entries of the list at address 0 of `heap_three`. -/
def spine_three : List (Nat × SCM) := [(0, SCM.obj 1), (2, SCM.obj 3), (4, SCM.obj 5)]

/-- The list `(5 (10 . 1))` at address 0: its first element is not a pair. -/
def heap_bad_element : Heap :=
  [Cell.pair (SCM.imm 5) (SCM.obj 1), Cell.pair (SCM.obj 2) SCM.eol,
   Cell.pair (SCM.imm 10) (SCM.imm 1)]

/-- The list `(k c0)` at address 0, where `k = (7 . 8)` is cell 2 and the second
element is the first spine cell `c0` itself (a cycle through a car):
`(define k (cons 7 8)) (define c0 (list k #f)) (set-car! (cdr c0) c0)`. -/
def heap_spine_entry : Heap :=
  [Cell.pair (SCM.obj 2) (SCM.obj 1), Cell.pair (SCM.obj 0) SCM.eol,
   Cell.pair (SCM.imm 7) (SCM.imm 8)]

/-- The list `(p p)` at address 0, where `p = (10 . 1)` is cell 2: one entry
object at two positions, `(let ((p (cons 10 1))) (list p p))`. -/
def heap_shared_entry : Heap :=
  [Cell.pair (SCM.obj 2) (SCM.obj 1), Cell.pair (SCM.obj 2) SCM.eol,
   Cell.pair (SCM.imm 10) (SCM.imm 1)]

end Guile

/-!
Generated functions of the lightening tests

The emitter itself (`lightening.c` and its backends) is not among the
sources; only the tests `tests/ldr_uc.c`, `tests/ldxi_l.c` and
`tests/divr_f.c` are.  The
instructions those tests emit are modelled from the specification as an
abstract machine: a register file of machine words, a byte-addressed memory,
and one step per emitted instruction.
-/

namespace Lightening

/-- Modelled from the spec: the build target a backend is selected for, its
native machine word width in bits and its byte order (the emitter and its
backends are not among the sources). -/
structure Target where
  wordsize : Nat
  big_endian : Bool
  deriving DecidableEq

/-- The general-purpose virtual registers the tests name (`JIT_R0`, `JIT_R1`). -/
inductive Gpr where
  | JIT_R0
  | JIT_R1
  deriving DecidableEq

/-- Modelled from the spec: the instructions emitted by the two tests, one
constructor per `jit_*` call (the emitter catalog is not among the sources). -/
inductive Insn where
  | jit_enter_jit_abi
  | jit_leave_jit_abi
  | jit_load_args_1 (dst : Gpr)
  | jit_ldr_uc (dst src : Gpr)
  | jit_ldxi_l (dst src : Gpr) (imm : Nat)
  | jit_retr (src : Gpr)
  deriving DecidableEq

/-- Register file: the machine word held by each register. -/
abbrev Regs := Gpr → Nat

/-- Byte-addressed memory; only the low eight bits of an entry are a byte. -/
abbrev Memory := Nat → Nat

/-- Write `v` to register `r`. -/
def set_reg (regs : Regs) (r : Gpr) (v : Nat) : Regs :=
  fun x => if x = r then v else regs x

/-- Modelled from the spec: an unsigned 8-bit load, the byte at `addr`
zero-extended to a machine word. -/
def load_u8 (t : Target) (mem : Memory) (addr : Nat) : Nat :=
  (mem addr % 256) % 2 ^ t.wordsize

/-- Position in memory, from `addr`, of the byte of weight `256 ^ k` of a
64-bit word, in the byte order of the target. -/
def byte_index (t : Target) (k : Nat) : Nat :=
  if t.big_endian then 7 - k else k

/-- Modelled from the spec: a 64-bit load, the word made of the eight bytes
from `addr` on, in the byte order of the target. -/
def load_u64 (t : Target) (mem : Memory) (addr : Nat) : Nat :=
  ((List.range 8).map (fun k => (mem (addr + byte_index t k) % 256) * 256 ^ k)).sum

/-- Modelled from the spec: run the emitted instructions on the arguments the
caller passed; the result is the word returned by the first `retr`, and `none`
when no return instruction is reached.  `enter-abi` and `leave-abi` save and
restore machine state of the host convention and leave the virtual registers
alone; `load-args-1` copies the first argument into the named register;
`ldr_uc` is the register-indirect unsigned 8-bit load and `ldxi_l` the
register-plus-immediate 64-bit load. -/
def run (t : Target) (mem : Memory) : List Insn → List Nat → Regs → Option Nat
  | [], _, _ => none
  | Insn.jit_enter_jit_abi :: rest, args, regs => run t mem rest args regs
  | Insn.jit_leave_jit_abi :: rest, args, regs => run t mem rest args regs
  | Insn.jit_load_args_1 dst :: rest, args, regs =>
    run t mem rest args (set_reg regs dst (args.headD 0 % 2 ^ t.wordsize))
  | Insn.jit_ldr_uc dst src :: rest, args, regs =>
    run t mem rest args (set_reg regs dst (load_u8 t mem (regs src)))
  | Insn.jit_ldxi_l dst src imm :: rest, args, regs =>
    run t mem rest args
      (set_reg regs dst (load_u64 t mem ((regs src + imm) % 2 ^ t.wordsize) % 2 ^ t.wordsize))
  | Insn.jit_retr src :: _, _, regs => some (regs src)

/-- The instructions `run_test` of `tests/ldr_uc.c` emits, lines 6-15. -/
def ldr_uc_run_test : List Insn :=
  [Insn.jit_enter_jit_abi, Insn.jit_load_args_1 Gpr.JIT_R1,
   Insn.jit_ldr_uc Gpr.JIT_R0 Gpr.JIT_R1, Insn.jit_leave_jit_abi, Insn.jit_retr Gpr.JIT_R0]

/-- The static array of `tests/ldr_uc.c`, line 3, laid out at address `data`. -/
def ldr_uc_data (mem : Memory) (data : Nat) : Memory :=
  fun a => if a = data then 0xff else if a = data + 1 then 0x00
    else if a = data + 2 then 0x42 else mem a

/-! ## Single-precision division of the abstract machine -/

/-- The float virtual registers the test names (`JIT_F0`, `JIT_F1`). -/
inductive Fpr where
  | JIT_F0
  | JIT_F1
  deriving DecidableEq

/-- Modelled from the spec: the instructions emitted by `tests/divr_f.c`, one
constructor per `jit_*` call (the emitter catalog is not among the sources). -/
inductive FInsn where
  | jit_enter_jit_abi
  | jit_leave_jit_abi
  | jit_load_args_2 (dst0 dst1 : Fpr)
  | jit_divr_f (dst src1 src2 : Fpr)
  | jit_retr_f (src : Fpr)
  deriving DecidableEq

/-- Float register file: the 32-bit pattern of the single-precision number held
by each register. -/
abbrev FRegs := Fpr → Nat

/-- Write the bit pattern `v` to float register `r`. -/
def set_freg (regs : FRegs) (r : Fpr) (v : Nat) : FRegs :=
  fun x => if x = r then v else regs x

/-- Sign bit of a binary32 bit pattern. -/
def f32_sign (b : Nat) : Nat := b / 0x80000000 % 2

/-- Magnitude of a binary32 bit pattern: the exponent and fraction fields, its
low 31 bits. -/
def f32_mag (b : Nat) : Nat := b % 0x80000000

/-- The magnitude pattern `t` denotes `f32_scaled t * 2 ^ (-149)`: the fraction
itself when the exponent field is 0 (subnormals and zero), and otherwise the
fraction with the implicit leading bit, times 2 to the exponent field minus 1.
The pattern of infinity, `0x7f800000`, gets `2 ^ 128`, the value rounding
treats as the next one after the largest finite number. -/
def f32_scaled (t : Nat) : Nat :=
  if t / 0x800000 = 0 then t % 0x800000
  else (0x800000 + t % 0x800000) * 2 ^ (t / 0x800000 - 1)

/-- The pattern is a finite number: its exponent field is not all ones. -/
def f32_is_finite (b : Nat) : Bool := decide (f32_mag b < 0x7f800000)

/-- The pattern is a NaN: exponent field all ones and a non-zero fraction. -/
def f32_is_nan (b : Nat) : Bool := decide (0x7f800000 < f32_mag b)

/-- The rational number a finite binary32 bit pattern denotes. -/
def f32_value (b : Nat) : ℚ :=
  (if f32_sign b = 1 then -1 else 1) * (f32_scaled (f32_mag b) : ℚ) / 2 ^ 149

/-- Binary search, from bit `i - 1` down, for the greatest magnitude pattern
above `t` whose value does not exceed `num / den` (in units of `2 ^ (-149)`). -/
def f32_floor_search (num den : Nat) : Nat → Nat → Nat
  | 0, t => t
  | i + 1, t =>
    if f32_scaled (t + 2 ^ i) * den ≤ num then f32_floor_search num den i (t + 2 ^ i)
    else f32_floor_search num den i t

/-- Modelled from the spec: round the exact non-negative quotient `num / den`
(in units of `2 ^ (-149)`) to a binary32 magnitude, to nearest with ties to
even.  With `t` the greatest pattern whose value does not exceed the quotient,
the result is `t` or `t + 1`, whichever is nearer, and on a tie the one whose
last fraction bit is 0; from the pattern of infinity on, the result is
infinity (overflow). -/
def f32_round (num den : Nat) : Nat :=
  let t := f32_floor_search num den 31 0
  if 0x7f800000 ≤ t then 0x7f800000
  else if 2 * num < (f32_scaled t + f32_scaled (t + 1)) * den then t
  else if (f32_scaled t + f32_scaled (t + 1)) * den < 2 * num then t + 1
  else if t % 2 = 0 then t
  else t + 1

/-- Modelled from the spec: single-precision division on bit patterns, the
architecture-neutral mathematical result of `divr_f`: the sign is the
exclusive or of the signs; a NaN operand, `inf / inf` and `0 / 0` give the quiet
NaN `0x7fc00000`; `inf / y` and `x / 0` give infinity, `x / inf` gives zero;
otherwise the exact quotient of the two magnitudes is rounded by `f32_round`. -/
def f32_div (a b : Nat) : Nat :=
  let s := (f32_sign a + f32_sign b) % 2 * 0x80000000
  if f32_is_nan a || f32_is_nan b then 0x7fc00000
  else if f32_mag a = 0x7f800000 then
    (if f32_mag b = 0x7f800000 then 0x7fc00000 else s + 0x7f800000)
  else if f32_mag b = 0x7f800000 then s
  else if f32_mag b = 0 then (if f32_mag a = 0 then 0x7fc00000 else s + 0x7f800000)
  else s + f32_round (f32_scaled (f32_mag a) * 2 ^ 149) (f32_scaled (f32_mag b))

/-- Modelled from the spec: run the instructions `tests/divr_f.c` emits on the
two float arguments the caller passed, as 32-bit patterns; the result is the
pattern returned by the first `retr_f`.  `load-args-2` copies the two arguments
into the named float registers and `divr_f` divides its first source by its
second. -/
def run_f : List FInsn → List Nat → FRegs → Option Nat
  | [], _, _ => none
  | FInsn.jit_enter_jit_abi :: rest, args, regs => run_f rest args regs
  | FInsn.jit_leave_jit_abi :: rest, args, regs => run_f rest args regs
  | FInsn.jit_load_args_2 dst0 dst1 :: rest, args, regs =>
    run_f rest args
      (set_freg (set_freg regs dst0 (args.headD 0 % 0x100000000)) dst1
        (args.tail.headD 0 % 0x100000000))
  | FInsn.jit_divr_f dst src1 src2 :: rest, args, regs =>
    run_f rest args (set_freg regs dst (f32_div (regs src1) (regs src2)))
  | FInsn.jit_retr_f src :: _, _, regs => some (regs src)

/-- The instructions `run_test` of `tests/divr_f.c` emits, lines 6-13. -/
def divr_f_run_test : List FInsn :=
  [FInsn.jit_enter_jit_abi, FInsn.jit_load_args_2 Fpr.JIT_F0 Fpr.JIT_F1,
   FInsn.jit_divr_f Fpr.JIT_F0 Fpr.JIT_F0 Fpr.JIT_F1, FInsn.jit_leave_jit_abi,
   FInsn.jit_retr_f Fpr.JIT_F0]

end Lightening

namespace Guile

/-! ## Basic facts about the heap primitives -/

theorem pair_fields_obj (h : Heap) (x x1 x2 : SCM) (hx : pair_fields h x = some (x1, x2)) :
    ∃ a, x = SCM.obj a ∧ h[a]? = some (Cell.pair x1 x2) := by
  cases x with
  | obj a =>
    refine ⟨a, rfl, ?_⟩
    simp only [pair_fields] at hx
    split at hx
    · next y1 y2 hy => simp at hx; rw [hy, hx.1, hx.2]
    · simp at hx
  | _ => simp [pair_fields] at hx

theorem pair_fields_of_cell (h : Heap) (a : Nat) (x1 x2 : SCM)
    (ha : h[a]? = some (Cell.pair x1 x2)) : pair_fields h (SCM.obj a) = some (x1, x2) := by
  simp [pair_fields, ha]

theorem pair_fields_null_or_nil (h : Heap) (x : SCM) (hx : SCM_NULL_OR_NIL_P x = true) :
    pair_fields h x = none := by
  cases x <;> simp [SCM_NULL_OR_NIL_P] at hx <;> simp [pair_fields]

theorem is_list_of_cons (h : Heap) (x : SCM) (a : Nat) (e : SCM) (sp : List (Nat × SCM)) :
    is_list_of h x ((a, e) :: sp) = true ↔
      x = SCM.obj a ∧ ∃ d, h[a]? = some (Cell.pair e d) ∧ is_list_of h d sp = true := by
  constructor
  · intro hl
    simp only [is_list_of] at hl
    split at hl
    · next b e1 d hb =>
      simp only [Bool.and_eq_true, decide_eq_true_eq] at hl
      obtain ⟨⟨h1, h2⟩, h3⟩ := hl
      subst h1 h2
      exact ⟨rfl, d, hb, h3⟩
    · simp at hl
  · rintro ⟨rfl, d, hd, hl⟩
    simp [is_list_of, hd, hl]

theorem well_formed_nil (h : Heap) (x : SCM) :
    well_formed_alist h x [] = true ↔ SCM_NULL_OR_NIL_P x = true := by
  simp [well_formed_alist, is_list_of]

theorem well_formed_cons (h : Heap) (x : SCM) (a : Nat) (e : SCM) (sp : List (Nat × SCM)) :
    well_formed_alist h x ((a, e) :: sp) = true ↔
      x = SCM.obj a ∧ ∃ d k v, h[a]? = some (Cell.pair e d) ∧ pair_fields h e = some (k, v) ∧
        well_formed_alist h d sp = true := by
  simp only [well_formed_alist, Bool.and_eq_true, is_list_of_cons, List.all_cons, scm_is_pair,
    Option.isSome_iff_exists, Prod.exists]
  constructor
  · rintro ⟨⟨hx, d, hd, hl⟩, ⟨k, v, hk⟩, hall⟩
    exact ⟨hx, d, k, v, hd, hk, hl, hall⟩
  · rintro ⟨hx, d, k, v, hd, hk, hl, hall⟩
    exact ⟨⟨hx, d, hd, hl⟩, ⟨k, v, hk⟩, hall⟩

/-! ## The two lookups on a well-formed list -/

theorem sloppy_assq_of_list (h : Heap) (key : SCM) :
    ∀ (sp : List (Nat × SCM)) (alist : SCM) (fuel : Nat),
      well_formed_alist h alist sp = true → sp.length < fuel →
      scm_sloppy_assq fuel h key alist = Res.ok ((first_entry h key sp).getD SCM.bool_f) := by
  intro sp
  induction sp with
  | nil =>
    intro alist fuel hwf hfuel
    obtain ⟨f, rfl⟩ : ∃ f, fuel = f + 1 := ⟨fuel - 1, by simp at hfuel; omega⟩
    rw [well_formed_nil] at hwf
    simp [scm_sloppy_assq, pair_fields_null_or_nil h alist hwf, first_entry]
  | cons q sp ih =>
    intro alist fuel hwf hfuel
    obtain ⟨a, e⟩ := q
    obtain ⟨f, rfl⟩ : ∃ f, fuel = f + 1 := ⟨fuel - 1, by simp at hfuel; omega⟩
    rw [well_formed_cons] at hwf
    obtain ⟨rfl, d, k, v, hd, hk, hrest⟩ := hwf
    have hlen : sp.length < f := by simp at hfuel; omega
    by_cases hkey : k = key
    · simp [scm_sloppy_assq, pair_fields_of_cell h a e d hd, hk, scm_is_eq, hkey, first_entry,
        SCM_CAR]
    · simp [scm_sloppy_assq, pair_fields_of_cell h a e d hd, hk, scm_is_eq, hkey, first_entry,
        SCM_CAR, ih d f hrest hlen]

theorem assq_of_list (h : Heap) (key : SCM) :
    ∀ (sp : List (Nat × SCM)) (alist : SCM) (fuel : Nat),
      well_formed_alist h alist sp = true → sp.length < fuel →
      scm_assq fuel h key alist = Res.ok ((first_entry h key sp).getD SCM.bool_f) := by
  intro sp
  induction sp with
  | nil =>
    intro alist fuel hwf hfuel
    obtain ⟨f, rfl⟩ : ∃ f, fuel = f + 1 := ⟨fuel - 1, by simp at hfuel; omega⟩
    rw [well_formed_nil] at hwf
    simp [scm_assq, pair_fields_null_or_nil h alist hwf, first_entry, hwf]
  | cons q sp ih =>
    intro alist fuel hwf hfuel
    obtain ⟨a, e⟩ := q
    obtain ⟨f, rfl⟩ : ∃ f, fuel = f + 1 := ⟨fuel - 1, by simp at hfuel; omega⟩
    rw [well_formed_cons] at hwf
    obtain ⟨rfl, d, k, v, hd, hk, hrest⟩ := hwf
    have hlen : sp.length < f := by simp at hfuel; omega
    by_cases hkey : k = key
    · simp [scm_assq, pair_fields_of_cell h a e d hd, hk, scm_is_eq, hkey, first_entry, SCM_CAR]
    · simp [scm_assq, pair_fields_of_cell h a e d hd, hk, scm_is_eq, hkey, first_entry, SCM_CAR,
        ih d f hrest hlen]

theorem first_entry_none (h : Heap) (key : SCM) (sp : List (Nat × SCM)) :
    first_entry h key sp = none ↔ ∀ q ∈ sp, SCM_CAR h q.2 ≠ some key := by
  induction sp with
  | nil => simp [first_entry]
  | cons q sp ih =>
    obtain ⟨a, e⟩ := q
    by_cases hk : SCM_CAR h e = some key
    · simp [first_entry, hk]
    · simp [first_entry, hk, ih]

theorem first_entry_some (h : Heap) (key : SCM) (sp : List (Nat × SCM)) (e : SCM) :
    first_entry h key sp = some e ↔
      ∃ pre c post, sp = pre ++ (c, e) :: post ∧ (∀ q ∈ pre, SCM_CAR h q.2 ≠ some key) ∧
        SCM_CAR h e = some key := by
  induction sp with
  | nil => simp [first_entry]
  | cons q sp ih =>
    obtain ⟨a, e1⟩ := q
    by_cases hk : SCM_CAR h e1 = some key
    · simp only [first_entry, hk, if_true, Option.some.injEq]
      constructor
      · rintro rfl
        exact ⟨[], a, sp, rfl, by simp, hk⟩
      · rintro ⟨pre, c, post, hsp, hpre, _⟩
        cases pre with
        | nil => simp at hsp; exact hsp.1.2
        | cons p pre =>
          simp at hsp
          have hp := hpre p (by simp)
          rw [← hsp.1] at hp
          exact absurd hk hp
    · simp only [first_entry, hk, if_false, ih]
      constructor
      · rintro ⟨pre, c, post, hsp, hpre, he⟩
        refine ⟨(a, e1) :: pre, c, post, by simp [hsp], ?_, he⟩
        intro q hq
        simp at hq
        rcases hq with rfl | hq
        · exact hk
        · exact hpre q hq
      · rintro ⟨pre, c, post, hsp, hpre, he⟩
        cases pre with
        | nil =>
          simp at hsp
          rw [← hsp.1.2] at he
          exact absurd he hk
        | cons p pre =>
          simp at hsp
          exact ⟨pre, c, post, hsp.2, fun q hq => hpre q (by simp [hq]), he⟩

/-! ## `assq` against `sloppy-assq` on arbitrary arguments -/

theorem sloppy_assq_no_error (h : Heap) (key : SCM) :
    ∀ (fuel : Nat) (ls : SCM), scm_sloppy_assq fuel h key ls ≠ Res.wrong_type_arg := by
  intro fuel
  induction fuel with
  | zero => intro ls; simp [scm_sloppy_assq]
  | succ f ih =>
    intro ls
    simp only [scm_sloppy_assq]
    split
    · split
      · split
        · simp
        · exact ih _
      · exact ih _
    · simp

theorem sloppy_assq_eq_assq (h : Heap) (key : SCM) :
    ∀ (fuel : Nat) (ls : SCM), scm_assq fuel h key ls ≠ Res.wrong_type_arg →
      scm_sloppy_assq fuel h key ls = scm_assq fuel h key ls := by
  intro fuel
  induction fuel with
  | zero => intro ls _; simp [scm_sloppy_assq, scm_assq]
  | succ f ih =>
    intro ls hne
    cases hls : pair_fields h ls with
    | none =>
      simp only [scm_assq, hls] at hne
      simp only [scm_sloppy_assq, scm_assq, hls]
      split
      · rfl
      · next hnn => simp [hnn] at hne
    | some p =>
      obtain ⟨tmp, rest⟩ := p
      cases htmp : pair_fields h tmp with
      | none => simp [scm_assq, hls, htmp] at hne
      | some kv =>
        obtain ⟨k, v⟩ := kv
        simp only [scm_assq, hls, htmp] at hne
        simp only [scm_sloppy_assq, scm_assq, hls, htmp]
        split
        · rfl
        · next hk =>
          simp only [hk] at hne
          exact ih rest hne

theorem assq_ok_cases (h : Heap) (key : SCM) :
    ∀ (fuel : Nat) (ls ent : SCM), scm_assq fuel h key ls = Res.ok ent →
      ent = SCM.bool_f ∨ ∃ d, pair_fields h ent = some (key, d) := by
  intro fuel
  induction fuel with
  | zero => intro ls ent hok; simp [scm_assq] at hok
  | succ f ih =>
    intro ls ent hok
    simp only [scm_assq] at hok
    split at hok
    · next tmp rest hls =>
      split at hok
      · simp at hok
      · next k v htmp =>
        split at hok
        · next hk =>
          simp only [scm_is_eq, decide_eq_true_eq] at hk
          simp only [Res.ok.injEq] at hok
          subst hok hk
          exact Or.inr ⟨v, htmp⟩
        · exact ih rest ent hok
    · split at hok
      · simp only [Res.ok.injEq] at hok
        exact Or.inl hok.symm
      · simp at hok

/-! ## Mutating one cell -/

theorem pair_fields_set (h : Heap) (a : Nat) (x1 x2 v y : SCM)
    (ha : h[a]? = some (Cell.pair x1 x2)) :
    pair_fields (h.set a (Cell.pair x1 v)) y =
      if y = SCM.obj a then some (x1, v) else pair_fields h y := by
  have hlt : a < h.length := by
    rcases List.getElem?_eq_some.mp ha with ⟨hlt, _⟩
    exact hlt
  cases y with
  | obj b =>
    by_cases hb : b = a
    · subst hb
      simp [pair_fields, List.getElem?_set_self hlt]
    · have hb2 : a ≠ b := fun hh => hb hh.symm
      simp [pair_fields, List.getElem?_set_ne hb2, hb]
  | _ => simp [pair_fields]

theorem SCM_CAR_set (h : Heap) (a : Nat) (x1 x2 v y : SCM)
    (ha : h[a]? = some (Cell.pair x1 x2)) :
    SCM_CAR (h.set a (Cell.pair x1 v)) y = SCM_CAR h y := by
  simp only [SCM_CAR, pair_fields_set h a x1 x2 v y ha]
  split
  · next hy => subst hy; simp [pair_fields_of_cell h a x1 x2 ha]
  · rfl

theorem scm_is_pair_set (h : Heap) (a : Nat) (x1 x2 v y : SCM)
    (ha : h[a]? = some (Cell.pair x1 x2)) :
    scm_is_pair (h.set a (Cell.pair x1 v)) y = scm_is_pair h y := by
  simp only [scm_is_pair, pair_fields_set h a x1 x2 v y ha]
  split
  · next hy => subst hy; simp [pair_fields_of_cell h a x1 x2 ha]
  · rfl

theorem is_list_of_set (h : Heap) (a : Nat) (c : Cell) :
    ∀ (sp : List (Nat × SCM)) (x : SCM), is_list_of h x sp = true → (∀ q ∈ sp, q.1 ≠ a) →
      is_list_of (h.set a c) x sp = true := by
  intro sp
  induction sp with
  | nil => intro x hl _; simpa [is_list_of] using hl
  | cons q sp ih =>
    intro x hl hne
    obtain ⟨b, e⟩ := q
    rw [is_list_of_cons] at hl ⊢
    obtain ⟨hx, d, hd, hrest⟩ := hl
    have hba : a ≠ b := fun hh => hne (b, e) (by simp) hh.symm
    refine ⟨hx, d, ?_, ih d hrest (fun q hq => hne q (by simp [hq]))⟩
    rw [List.getElem?_set_ne hba]
    exact hd

theorem first_entry_congr (h1 h2 : Heap) (key : SCM) (hcar : ∀ y, SCM_CAR h1 y = SCM_CAR h2 y)
    (sp : List (Nat × SCM)) : first_entry h1 key sp = first_entry h2 key sp := by
  induction sp with
  | nil => rfl
  | cons q sp ih =>
    obtain ⟨b, e⟩ := q
    simp only [first_entry, hcar e, ih]

theorem well_formed_set (h : Heap) (a : Nat) (x1 x2 v x : SCM) (sp : List (Nat × SCM))
    (ha : h[a]? = some (Cell.pair x1 x2)) (hwf : well_formed_alist h x sp = true)
    (hne : ∀ q ∈ sp, q.1 ≠ a) :
    well_formed_alist (h.set a (Cell.pair x1 v)) x sp = true := by
  simp only [well_formed_alist, Bool.and_eq_true, List.all_eq_true] at hwf ⊢
  refine ⟨is_list_of_set h a _ sp x hwf.1 hne, ?_⟩
  intro q hq
  rw [scm_is_pair_set h a x1 x2 v q.2 ha]
  exact hwf.2 q hq

/-! ## Allocation only extends the heap -/

theorem cell_append (h ext : Heap) (a : Nat) (c : Cell) (ha : h[a]? = some c) :
    (h ++ ext)[a]? = some c := by
  have hlt : a < h.length := by
    rcases List.getElem?_eq_some.mp ha with ⟨hlt, _⟩
    exact hlt
  rw [List.getElem?_append_left hlt]
  exact ha

theorem pair_fields_append (h ext : Heap) (y x1 x2 : SCM) (hy : pair_fields h y = some (x1, x2)) :
    pair_fields (h ++ ext) y = some (x1, x2) := by
  obtain ⟨a, rfl, ha⟩ := pair_fields_obj h y x1 x2 hy
  exact pair_fields_of_cell _ a x1 x2 (cell_append h ext a _ ha)

theorem is_list_of_append_heap (h ext : Heap) :
    ∀ (sp : List (Nat × SCM)) (x : SCM), is_list_of h x sp = true →
      is_list_of (h ++ ext) x sp = true := by
  intro sp
  induction sp with
  | nil => intro x hl; simpa [is_list_of] using hl
  | cons q sp ih =>
    intro x hl
    obtain ⟨b, e⟩ := q
    rw [is_list_of_cons] at hl ⊢
    obtain ⟨hx, d, hd, hrest⟩ := hl
    exact ⟨hx, d, cell_append h ext b _ hd, ih d hrest⟩

theorem well_formed_append_heap (h ext : Heap) (x : SCM) (sp : List (Nat × SCM))
    (hwf : well_formed_alist h x sp = true) : well_formed_alist (h ++ ext) x sp = true := by
  simp only [well_formed_alist, Bool.and_eq_true, List.all_eq_true] at hwf ⊢
  refine ⟨is_list_of_append_heap h ext sp x hwf.1, ?_⟩
  intro q hq
  have hp := hwf.2 q hq
  simp only [scm_is_pair, Option.isSome_iff_exists, Prod.exists] at hp ⊢
  obtain ⟨k, v, hkv⟩ := hp
  exact ⟨k, v, pair_fields_append h ext q.2 k v hkv⟩

theorem scm_acons_eq (h : Heap) (key value alist : SCM) :
    scm_acons h key value alist =
      (h ++ [Cell.pair key value, Cell.pair (SCM.obj h.length) alist], SCM.obj (h.length + 1)) := by
  simp [scm_acons, scm_cons]

theorem scm_acons_result (h : Heap) (key value alist : SCM) :
    pair_fields (scm_acons h key value alist).1 (scm_acons h key value alist).2 =
      some (SCM.obj h.length, alist) := by
  rw [scm_acons_eq]
  apply pair_fields_of_cell
  rw [List.getElem?_append_right (by omega)]
  simp

theorem scm_acons_entry (h : Heap) (key value alist : SCM) :
    pair_fields (scm_acons h key value alist).1 (SCM.obj h.length) = some (key, value) := by
  rw [scm_acons_eq]
  apply pair_fields_of_cell
  rw [List.getElem?_append_right (by omega)]
  simp

theorem scm_acons_old_cells (h : Heap) (key value alist : SCM) (a : Nat) (c : Cell)
    (ha : h[a]? = some c) : (scm_acons h key value alist).1[a]? = some c := by
  rw [scm_acons_eq]
  exact cell_append h _ a c ha

theorem scm_acons_well_formed (h : Heap) (key value alist : SCM) (sp : List (Nat × SCM))
    (hwf : well_formed_alist h alist sp = true) :
    well_formed_alist (scm_acons h key value alist).1 (scm_acons h key value alist).2
      ((h.length + 1, SCM.obj h.length) :: sp) = true := by
  rw [well_formed_cons]
  have hr := scm_acons_result h key value alist
  have he := scm_acons_entry h key value alist
  obtain ⟨a, ha, hcell⟩ := pair_fields_obj _ _ _ _ hr
  have ha2 : (scm_acons h key value alist).2 = SCM.obj (h.length + 1) := by
    rw [scm_acons_eq]
  rw [ha2] at ha
  cases ha
  refine ⟨ha2, alist, key, value, hcell, he, ?_⟩
  rw [scm_acons_eq]
  exact well_formed_append_heap h _ alist sp hwf

theorem well_formed_entry_pair (h : Heap) (x : SCM) (sp : List (Nat × SCM))
    (hwf : well_formed_alist h x sp = true) (q : Nat × SCM) (hq : q ∈ sp) :
    ∃ k v, pair_fields h q.2 = some (k, v) := by
  simp only [well_formed_alist, Bool.and_eq_true, List.all_eq_true] at hwf
  have hp := hwf.2 q hq
  simpa only [scm_is_pair, Option.isSome_iff_exists, Prod.exists] using hp

/-! ## `assq-set!` on a well-formed list -/

theorem assq_set_x_absent (h : Heap) (alist key val : SCM) (sp : List (Nat × SCM)) (fuel : Nat)
    (hwf : well_formed_alist h alist sp = true) (hfuel : sp.length < fuel)
    (hno : ∀ q ∈ sp, SCM_CAR h q.2 ≠ some key) :
    scm_assq_set_x fuel h alist key val = Res.ok (scm_acons h key val alist) := by
  have hfe := (first_entry_none h key sp).mpr hno
  simp [scm_assq_set_x, sloppy_assq_of_list h key sp alist fuel hwf hfuel, hfe, scm_is_pair,
    pair_fields]

theorem assq_set_x_found (h : Heap) (alist key val : SCM) (sp : List (Nat × SCM)) (fuel : Nat)
    (pre post : List (Nat × SCM)) (c : Nat) (e : SCM)
    (hwf : well_formed_alist h alist sp = true) (hfuel : sp.length < fuel)
    (hsp : sp = pre ++ (c, e) :: post) (hpre : ∀ q ∈ pre, SCM_CAR h q.2 ≠ some key)
    (he : SCM_CAR h e = some key) (hspine : ∀ q ∈ sp, e ≠ SCM.obj q.1) :
    ∃ a v0, e = SCM.obj a ∧ h[a]? = some (Cell.pair key v0) ∧
      scm_assq_set_x fuel h alist key val = Res.ok (h.set a (Cell.pair key val), alist) ∧
      well_formed_alist (h.set a (Cell.pair key val)) alist sp = true := by
  have hfe : first_entry h key sp = some e :=
    (first_entry_some h key sp e).mpr ⟨pre, c, post, hsp, hpre, he⟩
  obtain ⟨k, v0, hkv⟩ := well_formed_entry_pair h alist sp hwf (c, e) (by simp [hsp])
  have hk : k = key := by simpa [SCM_CAR, hkv] using he
  subst hk
  obtain ⟨a, rfl, ha⟩ := pair_fields_obj h e k v0 hkv
  refine ⟨a, v0, rfl, ha, ?_, ?_⟩
  · simp [scm_assq_set_x, sloppy_assq_of_list h k sp alist fuel hwf hfuel, hfe, scm_is_pair,
      hkv, scm_set_cdr_x, ha]
  · apply well_formed_set h a k v0 val alist sp ha hwf
    intro q hq hqa
    exact hspine q hq (by rw [hqa])

/-! ## The spine of a proper list has no repeated cell -/

theorem is_list_of_unique (h : Heap) :
    ∀ (sp1 sp2 : List (Nat × SCM)) (x : SCM), is_list_of h x sp1 = true →
      is_list_of h x sp2 = true → sp1 = sp2 := by
  intro sp1
  induction sp1 with
  | nil =>
    intro sp2 x h1 h2
    cases sp2 with
    | nil => rfl
    | cons q sp2 =>
      obtain ⟨a, e⟩ := q
      rw [is_list_of_cons] at h2
      obtain ⟨rfl, _⟩ := h2
      simp [is_list_of, SCM_NULL_OR_NIL_P] at h1
  | cons q sp1 ih =>
    intro sp2 x h1 h2
    obtain ⟨a, e⟩ := q
    rw [is_list_of_cons] at h1
    obtain ⟨rfl, d, hd, hrest⟩ := h1
    cases sp2 with
    | nil => simp [is_list_of, SCM_NULL_OR_NIL_P] at h2
    | cons q2 sp2 =>
      obtain ⟨a2, e2⟩ := q2
      rw [is_list_of_cons] at h2
      obtain ⟨hx, d2, hd2, hrest2⟩ := h2
      cases hx
      rw [hd] at hd2
      cases hd2
      rw [ih sp2 d hrest hrest2]

theorem is_list_of_suffix (h : Heap) (a : Nat) (e : SCM) (l2 : List (Nat × SCM)) :
    ∀ (l1 : List (Nat × SCM)) (x : SCM), is_list_of h x (l1 ++ (a, e) :: l2) = true →
      is_list_of h (SCM.obj a) ((a, e) :: l2) = true := by
  intro l1
  induction l1 with
  | nil =>
    intro x hl
    have hl2 := hl
    simp only [List.nil_append] at hl2
    rw [is_list_of_cons] at hl2
    obtain ⟨rfl, _⟩ := hl2
    exact hl
  | cons q l1 ih =>
    intro x hl
    obtain ⟨b, e1⟩ := q
    simp only [List.cons_append] at hl
    rw [is_list_of_cons] at hl
    obtain ⟨_, d, _, hrest⟩ := hl
    exact ih d hrest

theorem spine_head_not_in_tail (h : Heap) (x : SCM) (a : Nat) (e : SCM)
    (sp : List (Nat × SCM)) (hl : is_list_of h x ((a, e) :: sp) = true) :
    ∀ q ∈ sp, q.1 ≠ a := by
  intro q hq hqa
  obtain ⟨b, e1⟩ := q
  simp only at hqa
  subst hqa
  obtain ⟨l1, l2, hsp⟩ := List.append_of_mem hq
  have hx : x = SCM.obj b := ((is_list_of_cons h x b e sp).mp hl).1
  subst hx
  have hsuf : is_list_of h (SCM.obj b) ((b, e1) :: l2) = true := by
    apply is_list_of_suffix h b e1 l2 ((b, e) :: l1) (SCM.obj b)
    rw [hsp] at hl
    exact hl
  have heq := is_list_of_unique h _ _ _ hl hsuf
  have hlen := congrArg List.length heq
  rw [hsp] at hlen
  simp at hlen
  omega

/-! ## `delq1!` unlinks the first cell holding the item -/

theorem delq1_walk_unlinks (h : Heap) (e : SCM) (c : Nat) (post : List (Nat × SCM)) :
    ∀ (pre : List (Nat × SCM)) (prev : Nat) (p1 walk : SCM) (fuel : Nat),
      h[prev]? = some (Cell.pair p1 walk) →
      is_list_of h walk (pre ++ (c, e) :: post) = true →
      (∀ q ∈ pre, q.2 ≠ e) → pre.length < fuel →
      (∀ q ∈ pre ++ (c, e) :: post, q.1 ≠ prev) →
      ∃ h1 d, delq1_walk fuel h e prev walk = Res.ok h1 ∧
        h1[prev]? = some (Cell.pair p1 d) ∧ is_list_of h1 d (pre ++ post) = true ∧
        (∀ y, SCM_CAR h1 y = SCM_CAR h y) ∧
        (∀ (a : Nat), a ≠ prev → (∀ q ∈ pre, q.1 ≠ a) → h1[a]? = h[a]?) := by
  intro pre
  induction pre with
  | nil =>
    intro prev p1 walk fuel hprev hl _ hfuel hnot
    obtain ⟨f, rfl⟩ : ∃ f, fuel = f + 1 := ⟨fuel - 1, by simp at hfuel; omega⟩
    simp only [List.nil_append] at hl hnot
    rw [is_list_of_cons] at hl
    obtain ⟨rfl, tail, hc, htail⟩ := hl
    have hlt : prev < h.length := by
      rcases List.getElem?_eq_some.mp hprev with ⟨hlt, _⟩
      exact hlt
    refine ⟨h.set prev (Cell.pair p1 tail), tail, ?_, ?_, ?_, ?_, ?_⟩
    · simp [delq1_walk, pair_fields_of_cell h c e tail hc, scm_is_eq, scm_set_cdr_x, hprev]
    · exact List.getElem?_set_self hlt
    · simp only [List.nil_append]
      exact is_list_of_set h prev _ post tail htail (fun q hq => hnot q (by simp [hq]))
    · intro y
      exact SCM_CAR_set h prev p1 _ tail y hprev
    · intro a ha _
      exact List.getElem?_set_ne (fun hh => ha hh.symm)
  | cons q pre ih =>
    intro prev p1 walk fuel hprev hl hpre hfuel hnot
    obtain ⟨b, x⟩ := q
    obtain ⟨f, rfl⟩ : ∃ f, fuel = f + 1 := ⟨fuel - 1, by simp at hfuel; omega⟩
    have hl0 := hl
    simp only [List.cons_append] at hl hnot
    rw [is_list_of_cons] at hl
    obtain ⟨rfl, d0, hb, hrest⟩ := hl
    have hxe : x ≠ e := hpre (b, x) (by simp)
    have hlen : pre.length < f := by simp at hfuel; omega
    have hnotb : ∀ q ∈ pre ++ (c, e) :: post, q.1 ≠ b :=
      spine_head_not_in_tail h (SCM.obj b) b x _ hl0
    obtain ⟨h1, d1, hrun, hcell, hlist, hcar, hframe⟩ :=
      ih b x d0 f hb hrest (fun q hq => hpre q (by simp [hq])) hlen hnotb
    have hpb : prev ≠ b := fun hh => hnot (b, x) (by simp) hh.symm
    refine ⟨h1, SCM.obj b, ?_, ?_, ?_, hcar, ?_⟩
    · simp [delq1_walk, pair_fields_of_cell h b x d0 hb, scm_is_eq, hxe, hrun]
    · rw [hframe prev hpb (fun q hq => hnot q (by simp [hq]))]
      exact hprev
    · simp only [List.cons_append]
      rw [is_list_of_cons]
      exact ⟨rfl, d1, hcell, hlist⟩
    · intro a ha hq
      exact hframe a (fun hh => hq (b, x) (by simp) hh.symm) (fun q hq1 => hq q (by simp [hq1]))

theorem scm_is_pair_eq_car (h : Heap) (y : SCM) : scm_is_pair h y = (SCM_CAR h y).isSome := by
  simp [scm_is_pair, SCM_CAR]

theorem well_formed_of_car (h h1 : Heap) (x : SCM) (sp : List (Nat × SCM))
    (hcar : ∀ y, SCM_CAR h1 y = SCM_CAR h y) (hl : is_list_of h1 x sp = true)
    (hall : ∀ q ∈ sp, scm_is_pair h q.2 = true) : well_formed_alist h1 x sp = true := by
  simp only [well_formed_alist, Bool.and_eq_true, List.all_eq_true]
  refine ⟨hl, fun q hq => ?_⟩
  rw [scm_is_pair_eq_car, hcar, ← scm_is_pair_eq_car]
  exact hall q hq

theorem delq1_x_unlinks (h : Heap) (alist e : SCM) (c : Nat) (pre post : List (Nat × SCM))
    (fuel : Nat) (hwf : well_formed_alist h alist (pre ++ (c, e) :: post) = true)
    (hfuel : (pre ++ (c, e) :: post).length < fuel) (hpre : ∀ q ∈ pre, q.2 ≠ e) :
    ∃ h1 r, scm_delq1_x fuel h e alist = Res.ok (h1, r) ∧
      well_formed_alist h1 r (pre ++ post) = true ∧
      (∀ y, SCM_CAR h1 y = SCM_CAR h y) ∧
      (∀ (a : Nat), (∀ q ∈ pre, q.1 ≠ a) → h1[a]? = h[a]?) := by
  obtain ⟨f, rfl⟩ : ∃ f, fuel = f + 1 := ⟨fuel - 1, by omega⟩
  have hpairs : ∀ q ∈ pre ++ (c, e) :: post, scm_is_pair h q.2 = true := by
    simp only [well_formed_alist, Bool.and_eq_true, List.all_eq_true] at hwf
    exact hwf.2
  have hlist : is_list_of h alist (pre ++ (c, e) :: post) = true := by
    simp only [well_formed_alist, Bool.and_eq_true] at hwf
    exact hwf.1
  cases pre with
  | nil =>
    simp only [List.nil_append] at hlist hpairs ⊢
    rw [is_list_of_cons] at hlist
    obtain ⟨rfl, tail, hc, htail⟩ := hlist
    refine ⟨h, tail, ?_, ?_, fun _ => rfl, fun _ _ => rfl⟩
    · simp [scm_delq1_x, pair_fields_of_cell h c e tail hc, scm_is_eq]
    · exact well_formed_of_car h h tail post (fun _ => rfl) htail
        (fun q hq => hpairs q (by simp [hq]))
  | cons q pre =>
    obtain ⟨b, x⟩ := q
    have hl0 := hlist
    simp only [List.cons_append] at hlist hpairs hfuel ⊢
    rw [is_list_of_cons] at hlist
    obtain ⟨rfl, d0, hb, hrest⟩ := hlist
    have hxe : x ≠ e := hpre (b, x) (by simp)
    have hlen : pre.length < f := by simp at hfuel; omega
    obtain ⟨h1, d1, hrun, hcell, hlist1, hcar, hframe⟩ :=
      delq1_walk_unlinks h e c post pre b x d0 f hb hrest
        (fun q hq => hpre q (by simp [hq])) hlen
        (spine_head_not_in_tail h (SCM.obj b) b x _ hl0)
    refine ⟨h1, SCM.obj b, ?_, ?_, hcar, ?_⟩
    · simp [scm_delq1_x, pair_fields_of_cell h b x d0 hb, scm_is_eq, hxe, hrun]
    · apply well_formed_of_car h h1 _ _ hcar
      · rw [is_list_of_cons]
        exact ⟨rfl, d1, hcell, hlist1⟩
      · intro q hq
        apply hpairs q
        simp only [List.mem_cons, List.mem_append] at hq ⊢
        rcases hq with hq | hq | hq
        · exact Or.inl hq
        · exact Or.inr (Or.inl hq)
        · exact Or.inr (Or.inr (Or.inr hq))
    · intro a ha
      exact hframe a (fun hh => ha (b, x) (by simp) hh.symm) (fun q hq => ha q (by simp [hq]))

/-! ## The claims -/

/-- C1: on a well-formed association list, `assq` returns the entire first
entry, in list order, whose car is `eq?` to `key` (an entry is a pair, hence
never `#f`), and returns `#f` exactly when no entry has a car `eq?` to `key`.
The call returns as soon as the fuel exceeds the length of the list. -/
theorem scm_assq_returns_first_entry (h : Heap) (key alist : SCM) (sp : List (Nat × SCM))
    (fuel : Nat) (hwf : well_formed_alist h alist sp = true) (hfuel : sp.length < fuel) :
    (∃ pre c e post, sp = pre ++ (c, e) :: post ∧ (∀ q ∈ pre, SCM_CAR h q.2 ≠ some key) ∧
        SCM_CAR h e = some key ∧ scm_assq fuel h key alist = Res.ok e ∧ e ≠ SCM.bool_f) ∨
    ((∀ q ∈ sp, SCM_CAR h q.2 ≠ some key) ∧ scm_assq fuel h key alist = Res.ok SCM.bool_f) := by
  rw [assq_of_list h key sp alist fuel hwf hfuel]
  cases hfe : first_entry h key sp with
  | none =>
    right
    exact ⟨(first_entry_none h key sp).mp hfe, rfl⟩
  | some e =>
    left
    obtain ⟨pre, c, post, hsp, hpre, he⟩ := (first_entry_some h key sp e).mp hfe
    refine ⟨pre, c, e, post, hsp, hpre, he, rfl, ?_⟩
    rintro rfl
    simp [SCM_CAR, pair_fields] at he

/-- Witness for C1: in `((10 . 1) (20 . 2) (20 . 3))` the key `20` is found,
and what comes back is an entry or `#f` as the theorem says. -/
theorem scm_assq_returns_first_entry_witness :
    well_formed_alist heap_three (SCM.obj 0) spine_three = true ∧ spine_three.length < 4 ∧
    ((∃ pre c e post, spine_three = pre ++ (c, e) :: post ∧
        (∀ q ∈ pre, SCM_CAR heap_three q.2 ≠ some (SCM.imm 20)) ∧
        SCM_CAR heap_three e = some (SCM.imm 20) ∧
        scm_assq 4 heap_three (SCM.imm 20) (SCM.obj 0) = Res.ok e ∧ e ≠ SCM.bool_f) ∨
     ((∀ q ∈ spine_three, SCM_CAR heap_three q.2 ≠ some (SCM.imm 20)) ∧
        scm_assq 4 heap_three (SCM.imm 20) (SCM.obj 0) = Res.ok SCM.bool_f)) :=
  ⟨by decide, by decide,
    scm_assq_returns_first_entry heap_three (SCM.imm 20) (SCM.obj 0) spine_three 4
      (by decide) (by decide)⟩

/-- C2 as stated fails: on the list `(5 (10 . 1))`, whose first element is not
a pair, `(assq-ref alist 10)` returns `1` while `(assq 10 alist)`, and with it
the `let` expression, signals `wrong-type-arg`. -/
theorem scm_assq_ref_differs_on_bad_element :
    scm_assq_ref 4 heap_bad_element (SCM.obj 0) (SCM.imm 10) = Res.ok (SCM.imm 1) ∧
    assq_ref_expr 4 heap_bad_element (SCM.imm 10) (SCM.obj 0) = Res.wrong_type_arg ∧
    scm_assq_ref 4 heap_bad_element (SCM.obj 0) (SCM.imm 10) ≠
      assq_ref_expr 4 heap_bad_element (SCM.imm 10) (SCM.obj 0) := by
  decide

/-- C2 (amended): for every heap, key, alist argument and fuel, `assq-ref` has
the same outcome as `(let ((ent (assq key alist))) (and ent (cdr ent)))`
exactly when `assq` does not signal `wrong-type-arg` on that argument; where
`assq` signals the error, `assq-ref` does not. -/
theorem scm_assq_ref_eq_expr_iff (fuel : Nat) (h : Heap) (alist key : SCM) :
    scm_assq_ref fuel h alist key = assq_ref_expr fuel h key alist ↔
      scm_assq fuel h key alist ≠ Res.wrong_type_arg := by
  constructor
  · intro heq hw
    have hs := sloppy_assq_no_error h key fuel alist
    simp only [assq_ref_expr, hw] at heq
    simp only [scm_assq_ref] at heq
    split at heq
    · split at heq <;> simp at heq
    · next hh => exact hs hh
    · simp at heq
  · intro hne
    have hs := sloppy_assq_eq_assq h key fuel alist hne
    simp only [scm_assq_ref, assq_ref_expr, hs]
    cases hres : scm_assq fuel h key alist with
    | ok ent =>
      rcases assq_ok_cases h key fuel alist ent hres with rfl | ⟨d, hd⟩
      · simp [pair_fields]
      · obtain ⟨a, rfl, _⟩ := pair_fields_obj h ent key d hd
        simp [hd]
    | wrong_type_arg => rfl
    | out_of_fuel => rfl

/-- C6: `acons` allocates one new pair `(key . value)` and one new spine cell
whose car is that pair and whose cdr is `alist`; every cell of the old heap is
left as it was, a list `alist` stays the same list behind the new element, and
`assq key` on the result returns the new pair whatever `alist` contains. -/
theorem scm_acons_prepends (h : Heap) (key value alist : SCM) (fuel : Nat) :
    ∃ p, p = SCM.obj h.length ∧ pair_fields h p = none ∧
      pair_fields (scm_acons h key value alist).1 (scm_acons h key value alist).2 =
        some (p, alist) ∧
      pair_fields (scm_acons h key value alist).1 p = some (key, value) ∧
      (∀ (a : Nat) (c : Cell), h[a]? = some c →
        (scm_acons h key value alist).1[a]? = some c) ∧
      (∀ sp, is_list_of h alist sp = true →
        is_list_of (scm_acons h key value alist).1 (scm_acons h key value alist).2
          ((h.length + 1, p) :: sp) = true) ∧
      scm_assq (fuel + 1) (scm_acons h key value alist).1 key (scm_acons h key value alist).2 =
        Res.ok p := by
  refine ⟨SCM.obj h.length, rfl, ?_, scm_acons_result h key value alist,
    scm_acons_entry h key value alist, scm_acons_old_cells h key value alist, ?_, ?_⟩
  · simp [pair_fields]
  · intro sp hl
    have hr := scm_acons_result h key value alist
    obtain ⟨a, ha, hcell⟩ := pair_fields_obj _ _ _ _ hr
    have ha2 : (scm_acons h key value alist).2 = SCM.obj (h.length + 1) := by
      rw [scm_acons_eq]
    rw [ha2] at ha
    cases ha
    rw [is_list_of_cons]
    refine ⟨ha2, alist, hcell, ?_⟩
    rw [scm_acons_eq]
    exact is_list_of_append_heap h _ sp alist hl
  · simp [scm_assq, scm_acons_result, scm_acons_entry, scm_is_eq]

/-- Witness for C6: consing `(20 . 9)` onto `((10 . 1) (20 . 2) (20 . 3))`. -/
theorem scm_acons_prepends_witness :
    is_list_of heap_three (SCM.obj 0) spine_three = true ∧
    is_list_of (scm_acons heap_three (SCM.imm 20) (SCM.imm 9) (SCM.obj 0)).1
      (scm_acons heap_three (SCM.imm 20) (SCM.imm 9) (SCM.obj 0)).2
      ((7, SCM.obj 6) :: spine_three) = true ∧
    scm_assq 1 (scm_acons heap_three (SCM.imm 20) (SCM.imm 9) (SCM.obj 0)).1 (SCM.imm 20)
      (scm_acons heap_three (SCM.imm 20) (SCM.imm 9) (SCM.obj 0)).2 = Res.ok (SCM.obj 6) := by
  obtain ⟨p, hp, _, _, _, _, hl, ha⟩ :=
    scm_acons_prepends heap_three (SCM.imm 20) (SCM.imm 9) (SCM.obj 0) 0
  subst hp
  exact ⟨by decide, hl spine_three (by decide), ha⟩

/-- C3 as stated fails: in the well-formed list `(k c0)`, whose second element
is its own first spine cell, `(assq-set! alist k 5)` stores `5` into the cdr of
that spine cell, which cuts the list, and `(assq-ref alist k)` then
returns `#f`, not `5`. -/
theorem scm_assq_set_x_then_ref_spine_entry :
    well_formed_alist heap_spine_entry (SCM.obj 0) [(0, SCM.obj 2), (1, SCM.obj 0)] = true ∧
    scm_assq_set_x 4 heap_spine_entry (SCM.obj 0) (SCM.obj 2) (SCM.imm 5) =
      Res.ok ([Cell.pair (SCM.obj 2) (SCM.imm 5), Cell.pair (SCM.obj 0) SCM.eol,
        Cell.pair (SCM.imm 7) (SCM.imm 8)], SCM.obj 0) ∧
    scm_assq_ref 4 [Cell.pair (SCM.obj 2) (SCM.imm 5), Cell.pair (SCM.obj 0) SCM.eol,
        Cell.pair (SCM.imm 7) (SCM.imm 8)] (SCM.obj 0) (SCM.obj 2) = Res.ok SCM.bool_f ∧
    SCM.bool_f ≠ SCM.imm 5 := by
  decide

/-- C3 (amended): for every well-formed association list in which the first
entry for `key` is not one of the list's own spine cells, `assq-set!` returns and
`assq-ref` on the heap and list it leaves yields `val`, both when the list had
an entry for `key` and when it had none. -/
theorem scm_assq_ref_after_assq_set_x (h : Heap) (alist key val : SCM)
    (sp : List (Nat × SCM)) (fuel : Nat)
    (hwf : well_formed_alist h alist sp = true) (hfuel : sp.length < fuel)
    (hspine : ∀ e, first_entry h key sp = some e → ∀ q ∈ sp, e ≠ SCM.obj q.1) :
    ∃ h1 alist1, scm_assq_set_x fuel h alist key val = Res.ok (h1, alist1) ∧
      scm_assq_ref fuel h1 alist1 key = Res.ok val := by
  cases hfe : first_entry h key sp with
  | none =>
    have hno := (first_entry_none h key sp).mp hfe
    refine ⟨(scm_acons h key val alist).1, (scm_acons h key val alist).2,
      assq_set_x_absent h alist key val sp fuel hwf hfuel hno, ?_⟩
    obtain ⟨f, rfl⟩ : ∃ f, fuel = f + 1 := ⟨fuel - 1, by omega⟩
    simp [scm_assq_ref, scm_sloppy_assq, scm_acons_result, scm_acons_entry, scm_is_eq]
  | some e =>
    obtain ⟨pre, c, post, hsp, hpre, he⟩ := (first_entry_some h key sp e).mp hfe
    obtain ⟨a, v0, rfl, ha, hset, hwf1⟩ :=
      assq_set_x_found h alist key val sp fuel pre post c e hwf hfuel hsp hpre he
        (hspine e hfe)
    refine ⟨_, _, hset, ?_⟩
    have hfe1 : first_entry (h.set a (Cell.pair key val)) key sp = some (SCM.obj a) := by
      rw [first_entry_congr _ h key (fun y => SCM_CAR_set h a key v0 val y ha) sp]
      exact hfe
    simp [scm_assq_ref, sloppy_assq_of_list _ key sp alist fuel hwf1 hfuel, hfe1,
      pair_fields_set h a key v0 val _ ha]

/-- Witness for C3: setting key `20` in `((10 . 1) (20 . 2) (20 . 3))`. -/
theorem scm_assq_ref_after_assq_set_x_witness :
    well_formed_alist heap_three (SCM.obj 0) spine_three = true ∧ spine_three.length < 4 ∧
    first_entry heap_three (SCM.imm 20) spine_three = some (SCM.obj 3) ∧
    (∀ q ∈ spine_three, SCM.obj 3 ≠ SCM.obj q.1) ∧
    ∃ h1 alist1, scm_assq_set_x 4 heap_three (SCM.obj 0) (SCM.imm 20) (SCM.imm 9) =
        Res.ok (h1, alist1) ∧
      scm_assq_ref 4 h1 alist1 (SCM.imm 20) = Res.ok (SCM.imm 9) :=
  ⟨by decide, by decide, by decide, by decide,
    scm_assq_ref_after_assq_set_x heap_three (SCM.obj 0) (SCM.imm 20) (SCM.imm 9) spine_three 4
      (by decide) (by decide) (fun e he => by
        have h3 : first_entry heap_three (SCM.imm 20) spine_three = some (SCM.obj 3) := by decide
        rw [h3] at he
        cases he
        decide)⟩

/-- C4 as stated fails: in the well-formed list `(p p)`, which holds the one
entry object `p = (10 . 1)` twice, `(assq-set! alist 10 9)` changes the value
of the later entry for the same key from `1` to `9` as well. -/
theorem scm_assq_set_x_shared_entry :
    well_formed_alist heap_shared_entry (SCM.obj 0) [(0, SCM.obj 2), (1, SCM.obj 2)] = true ∧
    scm_assq_set_x 4 heap_shared_entry (SCM.obj 0) (SCM.imm 10) (SCM.imm 9) =
      Res.ok ([Cell.pair (SCM.obj 2) (SCM.obj 1), Cell.pair (SCM.obj 2) SCM.eol,
        Cell.pair (SCM.imm 10) (SCM.imm 9)], SCM.obj 0) ∧
    SCM_CAR heap_shared_entry (SCM.obj 1) = some (SCM.obj 2) ∧
    SCM_CDR heap_shared_entry (SCM.obj 2) = some (SCM.imm 1) ∧
    SCM_CAR [Cell.pair (SCM.obj 2) (SCM.obj 1), Cell.pair (SCM.obj 2) SCM.eol,
        Cell.pair (SCM.imm 10) (SCM.imm 9)] (SCM.obj 1) = some (SCM.obj 2) ∧
    SCM_CDR [Cell.pair (SCM.obj 2) (SCM.obj 1), Cell.pair (SCM.obj 2) SCM.eol,
        Cell.pair (SCM.imm 10) (SCM.imm 9)] (SCM.obj 2) = some (SCM.imm 9) := by
  decide

/-- C4 (amended): for every well-formed association list in which the first
entry for `key` occurs at one position only and is not one of the list's own
spine cells, `assq-set!` changes nothing but the one association.  If no entry
has a car `eq?` to `key` the result is `(acons key val alist)`: one new entry
`(key . val)` in front of `alist`, every old cell unchanged.  Otherwise the
result is `alist` itself, still the same list of the same entries (same
length, same keys in the same order); the first entry for `key` now has value
`val`, every other entry keeps its value, and no other heap cell changed. -/
theorem scm_assq_set_x_changes_one_association (h : Heap) (alist key val : SCM)
    (sp : List (Nat × SCM)) (fuel : Nat)
    (hwf : well_formed_alist h alist sp = true) (hfuel : sp.length < fuel)
    (hunshared : ∀ e, first_entry h key sp = some e →
      (sp.map Prod.snd).count e ≤ 1 ∧ ∀ q ∈ sp, e ≠ SCM.obj q.1) :
    ((∀ q ∈ sp, SCM_CAR h q.2 ≠ some key) ∧
      scm_assq_set_x fuel h alist key val = Res.ok (scm_acons h key val alist) ∧
      well_formed_alist (scm_acons h key val alist).1 (scm_acons h key val alist).2
        ((h.length + 1, SCM.obj h.length) :: sp) = true ∧
      pair_fields (scm_acons h key val alist).1 (SCM.obj h.length) = some (key, val) ∧
      (∀ (a : Nat) (c : Cell), h[a]? = some c →
        (scm_acons h key val alist).1[a]? = some c)) ∨
    (∃ pre c e post h1, sp = pre ++ (c, e) :: post ∧
      (∀ q ∈ pre, SCM_CAR h q.2 ≠ some key) ∧ SCM_CAR h e = some key ∧
      scm_assq_set_x fuel h alist key val = Res.ok (h1, alist) ∧
      well_formed_alist h1 alist sp = true ∧
      (∀ y, SCM_CAR h1 y = SCM_CAR h y) ∧
      SCM_CDR h1 e = some val ∧
      (∀ q ∈ pre ++ post, SCM_CDR h1 q.2 = SCM_CDR h q.2) ∧
      (∀ (a : Nat), SCM.obj a ≠ e → h1[a]? = h[a]?)) := by
  cases hfe : first_entry h key sp with
  | none =>
    have hno := (first_entry_none h key sp).mp hfe
    exact Or.inl ⟨hno, assq_set_x_absent h alist key val sp fuel hwf hfuel hno,
      scm_acons_well_formed h key val alist sp hwf, scm_acons_entry h key val alist,
      scm_acons_old_cells h key val alist⟩
  | some e =>
    right
    obtain ⟨pre, c, post, hsp, hpre, he⟩ := (first_entry_some h key sp e).mp hfe
    obtain ⟨hcount, hspine⟩ := hunshared e hfe
    obtain ⟨a, v0, rfl, ha, hset, hwf1⟩ :=
      assq_set_x_found h alist key val sp fuel pre post c e hwf hfuel hsp hpre he hspine
    refine ⟨pre, c, SCM.obj a, post, _, hsp, hpre, he, hset, hwf1,
      fun y => SCM_CAR_set h a key v0 val y ha, ?_, ?_, ?_⟩
    · simp [SCM_CDR, pair_fields_set h a key v0 val _ ha]
    · intro q hq
      have hne : q.2 ≠ SCM.obj a := by
        rcases List.mem_append.mp hq with hq1 | hq2
        · intro hqa
          exact hpre q hq1 (hqa ▸ he)
        · intro hqa
          rw [hsp, List.map_append, List.map_cons, List.count_append, List.count_cons_self]
            at hcount
          have hz : List.count (SCM.obj a) (post.map Prod.snd) = 0 := by omega
          rw [List.count_eq_zero] at hz
          exact hz (hqa ▸ List.mem_map_of_mem Prod.snd hq2)
      simp [SCM_CDR, pair_fields_set h a key v0 val _ ha, hne]
    · intro b hb
      have hab : a ≠ b := fun hh => hb (by rw [hh])
      exact List.getElem?_set_ne hab

/-- Witness for C4: setting key `20` in `((10 . 1) (20 . 2) (20 . 3))`, whose
first entry for `20` is cell 3, at one position only and not a spine cell. -/
theorem scm_assq_set_x_changes_one_association_witness :
    well_formed_alist heap_three (SCM.obj 0) spine_three = true ∧ spine_three.length < 4 ∧
    first_entry heap_three (SCM.imm 20) spine_three = some (SCM.obj 3) ∧
    (spine_three.map Prod.snd).count (SCM.obj 3) ≤ 1 ∧
    (∀ q ∈ spine_three, SCM.obj 3 ≠ SCM.obj q.1) ∧
    (((∀ q ∈ spine_three, SCM_CAR heap_three q.2 ≠ some (SCM.imm 20)) ∧
      scm_assq_set_x 4 heap_three (SCM.obj 0) (SCM.imm 20) (SCM.imm 9) =
        Res.ok (scm_acons heap_three (SCM.imm 20) (SCM.imm 9) (SCM.obj 0)) ∧
      well_formed_alist (scm_acons heap_three (SCM.imm 20) (SCM.imm 9) (SCM.obj 0)).1
        (scm_acons heap_three (SCM.imm 20) (SCM.imm 9) (SCM.obj 0)).2
        ((heap_three.length + 1, SCM.obj heap_three.length) :: spine_three) = true ∧
      pair_fields (scm_acons heap_three (SCM.imm 20) (SCM.imm 9) (SCM.obj 0)).1
        (SCM.obj heap_three.length) = some (SCM.imm 20, SCM.imm 9) ∧
      (∀ (a : Nat) (c : Cell), heap_three[a]? = some c →
        (scm_acons heap_three (SCM.imm 20) (SCM.imm 9) (SCM.obj 0)).1[a]? = some c)) ∨
    (∃ pre c e post h1, spine_three = pre ++ (c, e) :: post ∧
      (∀ q ∈ pre, SCM_CAR heap_three q.2 ≠ some (SCM.imm 20)) ∧
      SCM_CAR heap_three e = some (SCM.imm 20) ∧
      scm_assq_set_x 4 heap_three (SCM.obj 0) (SCM.imm 20) (SCM.imm 9) =
        Res.ok (h1, SCM.obj 0) ∧
      well_formed_alist h1 (SCM.obj 0) spine_three = true ∧
      (∀ y, SCM_CAR h1 y = SCM_CAR heap_three y) ∧
      SCM_CDR h1 e = some (SCM.imm 9) ∧
      (∀ q ∈ pre ++ post, SCM_CDR h1 q.2 = SCM_CDR heap_three q.2) ∧
      (∀ (a : Nat), SCM.obj a ≠ e → h1[a]? = heap_three[a]?))) :=
  ⟨by decide, by decide, by decide, by decide, by decide,
    scm_assq_set_x_changes_one_association heap_three (SCM.obj 0) (SCM.imm 20) (SCM.imm 9)
      spine_three 4 (by decide) (by decide) (fun e he => by
        have h3 : first_entry heap_three (SCM.imm 20) spine_three = some (SCM.obj 3) := by decide
        rw [h3] at he
        cases he
        exact ⟨by decide, by decide⟩)⟩

/-- C5: on a well-formed association list, `assq-remove!` returns the list
unchanged (and mutates nothing) when no entry has a car `eq?` to `key`;
otherwise it returns the list with exactly the first such entry removed: one
element shorter, every other entry, later entries for the same key included,
kept in the original order.  No car is changed, the only cells that can be
written are spine cells in front of the removed entry, and so every remaining
entry that is not itself one of those spine cells keeps its value. -/
theorem scm_assq_remove_x_removes_first (h : Heap) (alist key : SCM) (sp : List (Nat × SCM))
    (fuel : Nat) (hwf : well_formed_alist h alist sp = true) (hfuel : sp.length < fuel) :
    ((∀ q ∈ sp, SCM_CAR h q.2 ≠ some key) ∧
      scm_assq_remove_x fuel h alist key = Res.ok (h, alist)) ∨
    (∃ pre c e post h1 r, sp = pre ++ (c, e) :: post ∧
      (∀ q ∈ pre, SCM_CAR h q.2 ≠ some key) ∧ SCM_CAR h e = some key ∧
      scm_assq_remove_x fuel h alist key = Res.ok (h1, r) ∧
      well_formed_alist h1 r (pre ++ post) = true ∧
      (pre ++ post).length + 1 = sp.length ∧
      (∀ y, SCM_CAR h1 y = SCM_CAR h y) ∧
      (∀ (a : Nat), (∀ q ∈ pre, q.1 ≠ a) → h1[a]? = h[a]?) ∧
      (∀ q ∈ pre ++ post, (∀ r ∈ pre, q.2 ≠ SCM.obj r.1) →
        SCM_CDR h1 q.2 = SCM_CDR h q.2)) := by
  cases hfe : first_entry h key sp with
  | none =>
    left
    refine ⟨(first_entry_none h key sp).mp hfe, ?_⟩
    simp [scm_assq_remove_x, sloppy_assq_of_list h key sp alist fuel hwf hfuel, hfe, scm_is_pair,
      pair_fields]
  | some e =>
    right
    obtain ⟨pre, c, post, hsp, hpre, he⟩ := (first_entry_some h key sp e).mp hfe
    subst hsp
    have hpair : scm_is_pair h e = true := by
      rw [scm_is_pair_eq_car, he]
      rfl
    obtain ⟨h1, r, hrun, hwf1, hcar, hframe⟩ :=
      delq1_x_unlinks h alist e c pre post fuel hwf hfuel
        (fun q hq hqe => hpre q hq (hqe ▸ he))
    refine ⟨pre, c, e, post, h1, r, rfl, hpre, he, ?_, hwf1, by simp; omega, hcar, hframe, ?_⟩
    · simp [scm_assq_remove_x, sloppy_assq_of_list h key _ alist fuel hwf hfuel, hfe, hpair,
        hrun]
    · intro q _ hq
      cases hq2 : q.2 with
      | obj a =>
        have hcell := hframe a (fun r hr hra => hq r hr (by rw [hq2, hra]))
        simp [SCM_CDR, pair_fields, hcell]
      | _ => simp [SCM_CDR, pair_fields]

/-- Witness for C5: removing key `20` from `((10 . 1) (20 . 2) (20 . 3))`. -/
theorem scm_assq_remove_x_removes_first_witness :
    well_formed_alist heap_three (SCM.obj 0) spine_three = true ∧ spine_three.length < 4 ∧
    (((∀ q ∈ spine_three, SCM_CAR heap_three q.2 ≠ some (SCM.imm 20)) ∧
      scm_assq_remove_x 4 heap_three (SCM.obj 0) (SCM.imm 20) =
        Res.ok (heap_three, SCM.obj 0)) ∨
    (∃ pre c e post h1 r, spine_three = pre ++ (c, e) :: post ∧
      (∀ q ∈ pre, SCM_CAR heap_three q.2 ≠ some (SCM.imm 20)) ∧
      SCM_CAR heap_three e = some (SCM.imm 20) ∧
      scm_assq_remove_x 4 heap_three (SCM.obj 0) (SCM.imm 20) = Res.ok (h1, r) ∧
      well_formed_alist h1 r (pre ++ post) = true ∧
      (pre ++ post).length + 1 = spine_three.length ∧
      (∀ y, SCM_CAR h1 y = SCM_CAR heap_three y) ∧
      (∀ (a : Nat), (∀ q ∈ pre, q.1 ≠ a) → h1[a]? = heap_three[a]?) ∧
      (∀ q ∈ pre ++ post, (∀ r ∈ pre, q.2 ≠ SCM.obj r.1) →
        SCM_CDR h1 q.2 = SCM_CDR heap_three q.2))) :=
  ⟨by decide, by decide,
    scm_assq_remove_x_removes_first heap_three (SCM.obj 0) (SCM.imm 20) spine_three 4
      (by decide) (by decide)⟩

end Guile

namespace Lightening

/-! ## Loads and stores of the abstract machine -/

theorem run_ldr_uc_run_test (t : Target) (mem : Memory) (regs : Regs) (addr : Nat)
    (hws : 8 ≤ t.wordsize) (haddr : addr < 2 ^ t.wordsize) :
    run t mem ldr_uc_run_test [addr] regs = some (mem addr % 256) := by
  have h256 : (256 : Nat) ≤ 2 ^ t.wordsize := by
    calc (256 : Nat) = 2 ^ 8 := by norm_num
      _ ≤ 2 ^ t.wordsize := Nat.pow_le_pow_right (by norm_num) hws
  have hb : mem addr % 256 % 2 ^ t.wordsize = mem addr % 256 :=
    Nat.mod_eq_of_lt (lt_of_lt_of_le (Nat.mod_lt _ (by norm_num)) h256)
  simp [ldr_uc_run_test, run, set_reg, load_u8, Nat.mod_eq_of_lt haddr, hb]

/-- C7: the function `tests/ldr_uc.c` generates (enter-abi, load one pointer
argument, `ldr_uc`, leave-abi, `retr`) returns the byte stored at the address
passed in, zero-extended: a value in 0..255, whatever the word width of the
target (at least 8 bits); on the bytes `0xff, 0x00, 0x42` at increasing
addresses it returns 255, 0 and 66. -/
theorem ldr_uc_zero_extends (t : Target) (mem : Memory) (regs : Regs)
    (hws : 8 ≤ t.wordsize) :
    (∀ addr, addr < 2 ^ t.wordsize →
      run t mem ldr_uc_run_test [addr] regs = some (mem addr % 256) ∧ mem addr % 256 < 256) ∧
    (∀ data, data + 2 < 2 ^ t.wordsize →
      run t (ldr_uc_data mem data) ldr_uc_run_test [data] regs = some 255 ∧
      run t (ldr_uc_data mem data) ldr_uc_run_test [data + 1] regs = some 0 ∧
      run t (ldr_uc_data mem data) ldr_uc_run_test [data + 2] regs = some 66) := by
  constructor
  · intro addr haddr
    exact ⟨run_ldr_uc_run_test t mem regs addr hws haddr, Nat.mod_lt _ (by norm_num)⟩
  · intro data hdata
    rw [run_ldr_uc_run_test t _ regs data hws (by omega),
      run_ldr_uc_run_test t _ regs (data + 1) hws (by omega),
      run_ldr_uc_run_test t _ regs (data + 2) hws hdata]
    simp [ldr_uc_data]

/-- Witness for C7: a 32-bit big-endian target with the three bytes at
address 1000. -/
theorem ldr_uc_zero_extends_witness :
    8 ≤ (Target.mk 32 true).wordsize ∧ 1000 + 2 < 2 ^ (Target.mk 32 true).wordsize ∧
    run (Target.mk 32 true) (ldr_uc_data (fun _ => 0) 1000) ldr_uc_run_test [1000]
      (fun _ => 7) = some 255 ∧
    run (Target.mk 32 true) (ldr_uc_data (fun _ => 0) 1000) ldr_uc_run_test [1000 + 1]
      (fun _ => 7) = some 0 ∧
    run (Target.mk 32 true) (ldr_uc_data (fun _ => 0) 1000) ldr_uc_run_test [1000 + 2]
      (fun _ => 7) = some 66 :=
  ⟨by decide, by decide,
    (ldr_uc_zero_extends (Target.mk 32 true) (fun _ => 0) (fun _ => 7) (by decide)).2 1000
      (by decide)⟩

theorem f32_scaled_lt_succ (t : Nat) : f32_scaled t < f32_scaled (t + 1) := by
  have hP : 0 < 2 ^ (t / 8388608 - 1) := Nat.pos_pow_of_pos _ (by norm_num)
  by_cases hm : t % 8388608 + 1 < 8388608
  · have h1 : (t + 1) / 8388608 = t / 8388608 := by omega
    have h2 : (t + 1) % 8388608 = t % 8388608 + 1 := by omega
    simp only [f32_scaled, h1, h2]
    split
    · omega
    · exact Nat.mul_lt_mul_of_lt_of_le (by omega) (le_refl _) hP
  · have h1 : (t + 1) / 8388608 = t / 8388608 + 1 := by omega
    have h2 : (t + 1) % 8388608 = 0 := by omega
    have h3 : t % 8388608 = 8388607 := by omega
    simp only [f32_scaled, h1, h2, h3]
    by_cases hk : t / 8388608 = 0
    · simp [hk]
    · have hk1 : t / 8388608 + 1 - 1 = (t / 8388608 - 1) + 1 := by omega
      simp only [hk, if_false, Nat.succ_ne_zero, hk1, pow_succ]
      omega

theorem f32_scaled_strictMono : StrictMono f32_scaled :=
  strictMono_nat_of_lt_succ f32_scaled_lt_succ

theorem f32_floor_search_spec (num den : Nat) :
    ∀ (i t : Nat), f32_scaled t * den ≤ num →
      t ≤ f32_floor_search num den i t ∧ f32_floor_search num den i t < t + 2 ^ i ∧
      f32_scaled (f32_floor_search num den i t) * den ≤ num ∧
      (f32_floor_search num den i t + 1 = t + 2 ^ i ∨
        num < f32_scaled (f32_floor_search num den i t + 1) * den) := by
  intro i
  induction i with
  | zero =>
    intro t ht
    simp [f32_floor_search, ht]
  | succ i ih =>
    intro t ht
    have hpow : 2 ^ (i + 1) = 2 ^ i + 2 ^ i := by rw [pow_succ]; omega
    by_cases hmid : f32_scaled (t + 2 ^ i) * den ≤ num
    · obtain ⟨h1, h2, h3, h4⟩ := ih (t + 2 ^ i) hmid
      simp only [f32_floor_search, hmid, if_true]
      refine ⟨by omega, by omega, h3, ?_⟩
      rcases h4 with h4 | h4
      · left; omega
      · right; exact h4
    · obtain ⟨h1, h2, h3, h4⟩ := ih t ht
      simp only [f32_floor_search, hmid, if_false]
      refine ⟨h1, by omega, h3, ?_⟩
      rcases h4 with h4 | h4
      · right
        rw [h4]
        omega
      · right; exact h4

/-- What `f32_round` returns when it does not overflow: the pattern `t` just
below the quotient or its successor, chosen by comparing the quotient with the
midpoint, the even one on a tie. -/
theorem f32_round_cases (num den : Nat) (hr : f32_round num den < 0x7f800000) :
    ∃ t, f32_scaled t * den ≤ num ∧ num < f32_scaled (t + 1) * den ∧
      ((f32_round num den = t ∧ 2 * num ≤ (f32_scaled t + f32_scaled (t + 1)) * den ∧
          (2 * num = (f32_scaled t + f32_scaled (t + 1)) * den → t % 2 = 0)) ∨
        (f32_round num den = t + 1 ∧ (f32_scaled t + f32_scaled (t + 1)) * den ≤ 2 * num ∧
          (2 * num = (f32_scaled t + f32_scaled (t + 1)) * den → (t + 1) % 2 = 0))) := by
  obtain ⟨_, h2, h3, h4⟩ := f32_floor_search_spec num den 31 0 (by simp [f32_scaled])
  generalize ht : f32_floor_search num den 31 0 = t at h2 h3 h4
  have hdef : f32_round num den =
      if 0x7f800000 ≤ t then 0x7f800000
      else if 2 * num < (f32_scaled t + f32_scaled (t + 1)) * den then t
      else if (f32_scaled t + f32_scaled (t + 1)) * den < 2 * num then t + 1
      else if t % 2 = 0 then t
      else t + 1 := by
    simp only [f32_round, ht]
  rw [hdef] at hr ⊢
  by_cases hov : 0x7f800000 ≤ t
  · simp [hov] at hr
  · simp only [hov, if_false] at hr ⊢
    have hup : num < f32_scaled (t + 1) * den := by
      rcases h4 with h4 | h4
      · norm_num at h4; omega
      · exact h4
    refine ⟨t, h3, hup, ?_⟩
    split
    · next hlt => exact Or.inl ⟨rfl, by omega, by omega⟩
    · split
      · next hgt => exact Or.inr ⟨rfl, by omega, by omega⟩
      · split
        · next hev => exact Or.inl ⟨rfl, by omega, fun _ => hev⟩
        · next hod => exact Or.inr ⟨rfl, by omega, fun _ => by omega⟩

theorem f32_round_le (num den : Nat) : f32_round num den ≤ 0x7f800000 := by
  by_cases hov : 0x7f800000 ≤ f32_floor_search num den 31 0
  · simp [f32_round, hov]
  · simp only [f32_round, hov, if_false]
    split
    · omega
    · split
      · omega
      · split <;> omega

theorem f32_round_cases_rat (num den : Nat) (hden : 0 < den)
    (hr : f32_round num den < 0x7f800000) :
    ∃ t, (f32_scaled t : ℚ) ≤ (num : ℚ) / den ∧ (num : ℚ) / den < (f32_scaled (t + 1) : ℚ) ∧
      ((f32_round num den = t ∧
          2 * ((num : ℚ) / den) ≤ (f32_scaled t : ℚ) + (f32_scaled (t + 1) : ℚ) ∧
          (2 * ((num : ℚ) / den) = (f32_scaled t : ℚ) + (f32_scaled (t + 1) : ℚ) →
            t % 2 = 0)) ∨
        (f32_round num den = t + 1 ∧
          (f32_scaled t : ℚ) + (f32_scaled (t + 1) : ℚ) ≤ 2 * ((num : ℚ) / den) ∧
          (2 * ((num : ℚ) / den) = (f32_scaled t : ℚ) + (f32_scaled (t + 1) : ℚ) →
            (t + 1) % 2 = 0))) := by
  obtain ⟨t, hlo, hhi, hcase⟩ := f32_round_cases num den hr
  have hd : (0 : ℚ) < (den : ℚ) := by exact_mod_cast hden
  have hX : (num : ℚ) / den * den = num := div_mul_cancel₀ _ (ne_of_gt hd)
  have hloq : (f32_scaled t : ℚ) * den ≤ num := by exact_mod_cast hlo
  have hhiq : (num : ℚ) < (f32_scaled (t + 1) : ℚ) * den := by exact_mod_cast hhi
  refine ⟨t, ?_, ?_, ?_⟩
  · rw [le_div_iff₀ hd]; exact hloq
  · rw [div_lt_iff₀ hd]; exact hhiq
  · have hmid : ∀ (P : Prop), (2 * num = (f32_scaled t + f32_scaled (t + 1)) * den → P) →
        (2 * ((num : ℚ) / den) = (f32_scaled t : ℚ) + (f32_scaled (t + 1) : ℚ) → P) := by
      intro P hP heq
      apply hP
      have h2 : (2 : ℚ) * num = ((f32_scaled t : ℚ) + (f32_scaled (t + 1) : ℚ)) * den := by
        rw [← heq, mul_assoc, hX]
      exact_mod_cast h2
    rcases hcase with ⟨h1, h2, h3⟩ | ⟨h1, h2, h3⟩
    · left
      refine ⟨h1, ?_, hmid _ h3⟩
      have h2q : (2 : ℚ) * num ≤ ((f32_scaled t : ℚ) + (f32_scaled (t + 1) : ℚ)) * den := by
        exact_mod_cast h2
      have : 2 * ((num : ℚ) / den) * den ≤
          ((f32_scaled t : ℚ) + (f32_scaled (t + 1) : ℚ)) * den := by
        rw [mul_assoc, hX]; exact h2q
      exact le_of_mul_le_mul_right this hd
    · right
      refine ⟨h1, ?_, hmid _ h3⟩
      have h2q : ((f32_scaled t : ℚ) + (f32_scaled (t + 1) : ℚ)) * den ≤ (2 : ℚ) * num := by
        exact_mod_cast h2
      have : ((f32_scaled t : ℚ) + (f32_scaled (t + 1) : ℚ)) * den ≤
          2 * ((num : ℚ) / den) * den := by
        rw [mul_assoc, hX]; exact h2q
      exact le_of_mul_le_mul_right this hd

theorem f32_scaled_le_or_ge (t c : Nat) :
    (f32_scaled c : ℚ) ≤ (f32_scaled t : ℚ) ∧ c ≤ t ∨
      (f32_scaled (t + 1) : ℚ) ≤ (f32_scaled c : ℚ) ∧ t + 1 ≤ c := by
  rcases Nat.lt_or_ge t c with h | h
  · right
    exact ⟨by exact_mod_cast f32_scaled_strictMono.monotone h, h⟩
  · left
    exact ⟨by exact_mod_cast f32_scaled_strictMono.monotone h, h⟩

theorem f32_round_nearest (num den c : Nat) (hden : 0 < den)
    (hr : f32_round num den < 0x7f800000) :
    |(f32_scaled (f32_round num den) : ℚ) - (num : ℚ) / den| ≤
      |(f32_scaled c : ℚ) - (num : ℚ) / den| := by
  obtain ⟨t, hlo, hhi, hcase⟩ := f32_round_cases_rat num den hden hr
  rcases hcase with ⟨h1, h2, _⟩ | ⟨h1, h2, _⟩ <;> rw [h1] <;>
    rcases f32_scaled_le_or_ge t c with ⟨hc, _⟩ | ⟨hc, _⟩
  · rw [abs_of_nonpos (by linarith), abs_of_nonpos (by linarith)]; linarith
  · rw [abs_of_nonpos (by linarith), abs_of_nonneg (by linarith)]; linarith
  · rw [abs_of_nonneg (by linarith), abs_of_nonpos (by linarith)]; linarith
  · rw [abs_of_nonneg (by linarith), abs_of_nonneg (by linarith)]; linarith

theorem f32_round_tie_even (num den c : Nat) (hden : 0 < den)
    (hr : f32_round num den < 0x7f800000) (hne : c ≠ f32_round num den)
    (heq : |(f32_scaled c : ℚ) - (num : ℚ) / den| =
      |(f32_scaled (f32_round num den) : ℚ) - (num : ℚ) / den|) :
    f32_round num den % 2 = 0 := by
  obtain ⟨t, hlo, hhi, hcase⟩ := f32_round_cases_rat num den hden hr
  have hstep : (f32_scaled t : ℚ) < (f32_scaled (t + 1) : ℚ) := by
    exact_mod_cast f32_scaled_lt_succ t
  rcases hcase with ⟨h1, h2, h3⟩ | ⟨h1, h2, h3⟩ <;> rw [h1] at heq hne ⊢ <;>
    rcases f32_scaled_le_or_ge t c with ⟨hc, hct⟩ | ⟨hc, hct⟩
  · rw [abs_of_nonpos (by linarith), abs_of_nonpos (by linarith)] at heq
    have hval : (f32_scaled c : ℚ) = (f32_scaled t : ℚ) := by linarith
    have hct2 : c = t := f32_scaled_strictMono.injective (by exact_mod_cast hval)
    exact absurd hct2 hne
  · rw [abs_of_nonneg (by linarith), abs_of_nonpos (by linarith)] at heq
    exact h3 (by linarith)
  · rw [abs_of_nonpos (by linarith), abs_of_nonneg (by linarith)] at heq
    exact h3 (by linarith)
  · rw [abs_of_nonneg (by linarith), abs_of_nonneg (by linarith)] at heq
    have hval : (f32_scaled c : ℚ) = (f32_scaled (t + 1) : ℚ) := by linarith
    have hct2 : c = t + 1 := f32_scaled_strictMono.injective (by exact_mod_cast hval)
    exact absurd hct2 hne

theorem f32_round_overflow_iff (num den : Nat) (hden : 0 < den) :
    f32_round num den = 0x7f800000 ↔
      (f32_scaled 0x7f7fffff + f32_scaled 0x7f800000) * den ≤ 2 * num := by
  obtain ⟨_, h2, h3, h4⟩ := f32_floor_search_spec num den 31 0 (by simp [f32_scaled])
  generalize ht : f32_floor_search num den 31 0 = t at h2 h3 h4
  have hdef : f32_round num den =
      if 0x7f800000 ≤ t then 0x7f800000
      else if 2 * num < (f32_scaled t + f32_scaled (t + 1)) * den then t
      else if (f32_scaled t + f32_scaled (t + 1)) * den < 2 * num then t + 1
      else if t % 2 = 0 then t
      else t + 1 := by
    simp only [f32_round, ht]
  have hMH : f32_scaled 0x7f7fffff < f32_scaled 0x7f800000 :=
    f32_scaled_strictMono (by norm_num)
  rw [hdef]
  by_cases hov : 0x7f800000 ≤ t
  · simp only [hov, if_true, true_iff]
    have hH : f32_scaled 0x7f800000 ≤ f32_scaled t := f32_scaled_strictMono.monotone hov
    have h5 : f32_scaled 0x7f800000 * den ≤ f32_scaled t * den := Nat.mul_le_mul_right _ hH
    have h6 : f32_scaled 0x7f7fffff * den ≤ f32_scaled 0x7f800000 * den :=
      Nat.mul_le_mul_right _ (le_of_lt hMH)
    rw [Nat.add_mul]
    omega
  · simp only [hov, if_false]
    have hup : num < f32_scaled (t + 1) * den := by
      rcases h4 with h4 | h4
      · norm_num at h4; omega
      · exact h4
    by_cases htop : t = 0x7f7fffff
    · subst htop
      norm_num only [] at hup ⊢
      constructor
      · intro hres
        split at hres
        · omega
        · omega
      · intro hle
        rw [if_neg (by omega)]
        split
        · rfl
        · norm_num
    · have hlt : t + 1 ≤ 0x7f7fffff := by omega
      have h5 : f32_scaled (t + 1) * den ≤ f32_scaled 0x7f7fffff * den :=
        Nat.mul_le_mul_right _ (f32_scaled_strictMono.monotone hlt)
      have h6 : f32_scaled 0x7f7fffff * den < f32_scaled 0x7f800000 * den :=
        Nat.mul_lt_mul_of_lt_of_le hMH (le_refl _) hden
      constructor
      · intro hres
        split at hres
        · omega
        · split at hres
          · omega
          · split at hres <;> omega
      · intro hle
        rw [Nat.add_mul] at hle
        omega

/-! ## Division on bit patterns -/

theorem f32_sign_cases (b : Nat) : f32_sign b = 0 ∨ f32_sign b = 1 := by
  simp only [f32_sign]; omega

theorem f32_sign_compose (s R : Nat) (hs : s = 0 ∨ s = 1) (hR : R ≤ 0x7f800000) :
    f32_sign (s * 0x80000000 + R) = s ∧ f32_mag (s * 0x80000000 + R) = R ∧
      s * 0x80000000 + R < 0x100000000 ∧ (s * 0x80000000 + R) % 2 = R % 2 := by
  simp only [f32_sign, f32_mag]
  rcases hs with rfl | rfl <;> omega

theorem f32_scaled_pos (t : Nat) (ht : t ≠ 0) : 0 < f32_scaled t := by
  have h := f32_scaled_strictMono (Nat.pos_of_ne_zero ht)
  omega

theorem f32_div_finite (a b : Nat) (hfa : f32_is_finite a = true)
    (hfb : f32_is_finite b = true) (hnz : f32_mag b ≠ 0) :
    f32_div a b = (f32_sign a + f32_sign b) % 2 * 0x80000000 +
      f32_round (f32_scaled (f32_mag a) * 2 ^ 149) (f32_scaled (f32_mag b)) := by
  simp only [f32_is_finite, decide_eq_true_eq] at hfa hfb
  have h1 : f32_is_nan a = false := by simp [f32_is_nan]; omega
  have h2 : f32_is_nan b = false := by simp [f32_is_nan]; omega
  have h3 : f32_mag a ≠ 0x7f800000 := by omega
  have h4 : f32_mag b ≠ 0x7f800000 := by omega
  simp [f32_div, h1, h2, h3, h4, hnz]

theorem run_f_divr_f_run_test (regs : FRegs) (a b : Nat) (ha : a < 0x100000000)
    (hb : b < 0x100000000) : run_f divr_f_run_test [a, b] regs = some (f32_div a b) := by
  simp [divr_f_run_test, run_f, set_freg, Nat.mod_eq_of_lt ha, Nat.mod_eq_of_lt hb]

/-- The exact quotient of two finite numbers, the divisor not zero, has the
sign of the exclusive or and the magnitude `num / den` in units of
`2 ^ (-149)`. -/
theorem f32_quotient_eq (a b : Nat) (hnz : f32_mag b ≠ 0) :
    f32_value a / f32_value b =
      (if (f32_sign a + f32_sign b) % 2 = 1 then -1 else 1) *
        (((f32_scaled (f32_mag a) * 2 ^ 149 : ℕ) : ℚ) / (f32_scaled (f32_mag b) : ℚ)) /
        2 ^ 149 := by
  have hb : (f32_scaled (f32_mag b) : ℚ) ≠ 0 := by
    have := f32_scaled_pos (f32_mag b) hnz
    exact_mod_cast (ne_of_gt this)
  have hU : ((2 : ℚ) ^ 149) ≠ 0 := by positivity
  have hcast : ((f32_scaled (f32_mag a) * 2 ^ 149 : ℕ) : ℚ) =
      (f32_scaled (f32_mag a) : ℚ) * (2 : ℚ) ^ 149 := by
    simp only [Nat.cast_mul, Nat.cast_pow, Nat.cast_ofNat]
  have hsig : (if (f32_sign a + f32_sign b) % 2 = 1 then (-1 : ℚ) else 1) =
      (if f32_sign a = 1 then (-1 : ℚ) else 1) / (if f32_sign b = 1 then (-1 : ℚ) else 1) := by
    rcases f32_sign_cases a with h1 | h1 <;> rcases f32_sign_cases b with h2 | h2 <;>
      simp [h1, h2]
  have hsb : (if f32_sign b = 1 then (-1 : ℚ) else 1) ≠ 0 := by
    split <;> norm_num
  simp only [f32_value, hcast, hsig]
  generalize (2 : ℚ) ^ 149 = U at hU ⊢
  generalize (f32_scaled (f32_mag b) : ℚ) = Sb at hb ⊢
  generalize (f32_scaled (f32_mag a) : ℚ) = Sa
  generalize (if f32_sign b = 1 then (-1 : ℚ) else 1) = sb at hsb ⊢
  generalize (if f32_sign a = 1 then (-1 : ℚ) else 1) = sa
  field_simp
  ring

theorem signed_nearest (σ σc SR Sc X U : ℚ) (hσ : σ = 1 ∨ σ = -1) (hσc : σc = 1 ∨ σc = -1)
    (hSc : 0 ≤ Sc) (hX : 0 ≤ X) (h1 : |SR - X| ≤ |Sc - X|)
    (h0 : |SR - X| ≤ X) :
    |σ * SR / U - σ * X / U| ≤ |σc * Sc / U - σ * X / U| := by
  have e1 : σ * SR / U - σ * X / U = (σ * (SR - X)) / U := by ring
  have e2 : σc * Sc / U - σ * X / U = (σc * Sc - σ * X) / U := by ring
  rw [e1, e2, abs_div, abs_div]
  apply div_le_div_of_nonneg_right _ (abs_nonneg U)
  have hpos : |Sc + X| = Sc + X := abs_of_nonneg (by linarith)
  rcases hσ with rfl | rfl <;> rcases hσc with rfl | rfl
  · simpa using h1
  · have e : (-1 : ℚ) * Sc - 1 * X = -(Sc + X) := by ring
    rw [e, abs_neg, hpos, one_mul]
    linarith
  · have e : (1 : ℚ) * Sc - -1 * X = Sc + X := by ring
    have e3 : (-1 : ℚ) * (SR - X) = -(SR - X) := by ring
    rw [e, e3, abs_neg, hpos]
    linarith
  · have e : (-1 : ℚ) * Sc - -1 * X = -(Sc - X) := by ring
    have e3 : (-1 : ℚ) * (SR - X) = -(SR - X) := by ring
    rw [e, e3, abs_neg, abs_neg]
    exact h1

theorem signed_tie (σ σc SR Sc X U : ℚ) (hσ : σ = 1 ∨ σ = -1) (hσc : σc = 1 ∨ σc = -1)
    (hU : 0 < U) (hSc : 0 ≤ Sc) (hX : 0 ≤ X) (h0 : |SR - X| ≤ X)
    (hne : σc * Sc / U ≠ σ * SR / U)
    (heq : |σc * Sc / U - σ * X / U| = |σ * SR / U - σ * X / U|) :
    (Sc ≠ SR ∧ |Sc - X| = |SR - X|) ∨ (SR ≠ 0 ∧ |0 - X| = |SR - X|) := by
  have e1 : σ * SR / U - σ * X / U = (σ * (SR - X)) / U := by ring
  have e2 : σc * Sc / U - σ * X / U = (σc * Sc - σ * X) / U := by ring
  rw [e1, e2, abs_div, abs_div] at heq
  have hU2 : |U| ≠ 0 := by
    rw [abs_of_pos hU]; exact ne_of_gt hU
  have heq2 : |σc * Sc - σ * X| = |σ * (SR - X)| := by
    field_simp at heq
    exact heq
  have hpos : |Sc + X| = Sc + X := abs_of_nonneg (by linarith)
  have hzero : |0 - X| = X := by
    rw [zero_sub, abs_neg, abs_of_nonneg hX]
  rcases hσ with rfl | rfl <;> rcases hσc with rfl | rfl
  · left
    refine ⟨fun h => hne (by rw [h]), ?_⟩
    simpa using heq2
  · right
    have e : (-1 : ℚ) * Sc - 1 * X = -(Sc + X) := by ring
    rw [e, abs_neg, hpos, one_mul] at heq2
    have hSc0 : Sc = 0 := by linarith
    subst hSc0
    refine ⟨fun h => hne (by rw [h]; ring), ?_⟩
    rw [hzero]
    linarith
  · right
    have e : (1 : ℚ) * Sc - -1 * X = Sc + X := by ring
    have e3 : (-1 : ℚ) * (SR - X) = -(SR - X) := by ring
    rw [e, e3, abs_neg, hpos] at heq2
    have hSc0 : Sc = 0 := by linarith
    subst hSc0
    refine ⟨fun h => hne (by rw [h]; ring), ?_⟩
    rw [hzero]
    linarith
  · left
    refine ⟨fun h => hne (by rw [h]), ?_⟩
    have e : (-1 : ℚ) * Sc - -1 * X = -(Sc - X) := by ring
    have e3 : (-1 : ℚ) * (SR - X) = -(SR - X) := by ring
    rw [e, e3, abs_neg, abs_neg] at heq2
    exact heq2

theorem f32_value_compose (s R : Nat) (hs : s = 0 ∨ s = 1) (hR : R ≤ 0x7f800000) :
    f32_value (s * 0x80000000 + R) =
      (if s = 1 then -1 else 1) * (f32_scaled R : ℚ) / 2 ^ 149 := by
  obtain ⟨h1, h2, _, _⟩ := f32_sign_compose s R hs hR
  simp only [f32_value, h1, h2]

theorem f32_scaled_max : f32_scaled 0x7f7fffff = (2 ^ 128 - 2 ^ 104) * 2 ^ 149 := by
  decide

theorem f32_scaled_inf : f32_scaled 0x7f800000 = 2 ^ 128 * 2 ^ 149 := by
  decide

theorem sign_factor_cases (n : Nat) :
    (if n = 1 then (-1 : ℚ) else 1) = 1 ∨ (if n = 1 then (-1 : ℚ) else 1) = -1 := by
  split
  · right; rfl
  · left; rfl

theorem abs_sign_factor_mul (n : Nat) (Y U : ℚ) (hY : 0 ≤ Y) (hU : 0 < U) :
    |(if n = 1 then (-1 : ℚ) else 1) * Y / U| = Y / U := by
  have hYU : 0 ≤ Y / U := div_nonneg hY (le_of_lt hU)
  rcases sign_factor_cases n with h | h <;> rw [h]
  · rw [one_mul, abs_of_nonneg hYU]
  · have e : (-1 : ℚ) * Y / U = -(Y / U) := by ring
    rw [e, abs_neg, abs_of_nonneg hYU]

/-- Single-precision division of two finite numbers, the divisor not zero, is
the correctly rounded exact quotient. -/
theorem f32_div_spec (a b : Nat) (hfa : f32_is_finite a = true)
    (hfb : f32_is_finite b = true) (hnz : f32_mag b ≠ 0) :
    f32_div a b < 0x100000000 ∧ f32_is_nan (f32_div a b) = false ∧
    f32_sign (f32_div a b) = (f32_sign a + f32_sign b) % 2 ∧
    (f32_is_finite (f32_div a b) = true ↔
      |f32_value a / f32_value b| < 2 ^ 128 - 2 ^ 103) ∧
    (f32_is_finite (f32_div a b) = true → ∀ c, f32_is_finite c = true →
      |f32_value (f32_div a b) - f32_value a / f32_value b| ≤
        |f32_value c - f32_value a / f32_value b|) ∧
    (f32_is_finite (f32_div a b) = true → ∀ c, f32_is_finite c = true →
      f32_value c ≠ f32_value (f32_div a b) →
      |f32_value c - f32_value a / f32_value b| =
        |f32_value (f32_div a b) - f32_value a / f32_value b| →
      f32_div a b % 2 = 0) ∧
    (∀ c, f32_is_finite c = true → f32_value c = f32_value a / f32_value b →
      f32_is_finite (f32_div a b) = true ∧
        f32_value (f32_div a b) = f32_value a / f32_value b) := by
  rw [f32_div_finite a b hfa hfb hnz, f32_quotient_eq a b hnz]
  have hden : 0 < f32_scaled (f32_mag b) := f32_scaled_pos _ hnz
  generalize hnum : f32_scaled (f32_mag a) * 2 ^ 149 = num
  generalize f32_scaled (f32_mag b) = den at hden ⊢
  have hs : (f32_sign a + f32_sign b) % 2 = 0 ∨ (f32_sign a + f32_sign b) % 2 = 1 := by omega
  generalize (f32_sign a + f32_sign b) % 2 = s at hs ⊢
  have hR := f32_round_le num den
  obtain ⟨hsign, hmag, hlt, hpar⟩ := f32_sign_compose s _ hs hR
  have hval := f32_value_compose s _ hs hR
  have hU : (0 : ℚ) < 2 ^ 149 := by positivity
  have hdq : (0 : ℚ) < (den : ℚ) := by exact_mod_cast hden
  have hX : (0 : ℚ) ≤ (num : ℚ) / den := div_nonneg (Nat.cast_nonneg _) (le_of_lt hdq)
  have hfin : f32_is_finite (s * 0x80000000 + f32_round num den) = true ↔
      f32_round num den < 0x7f800000 := by
    simp only [f32_is_finite, hmag, decide_eq_true_eq]
  have hzero : ∀ (hr : f32_round num den < 0x7f800000),
      |(f32_scaled (f32_round num den) : ℚ) - (num : ℚ) / den| ≤ (num : ℚ) / den := by
    intro hr
    have h0 := f32_round_nearest num den 0 hden hr
    have hs0 : f32_scaled 0 = 0 := by decide
    rw [hs0, Nat.cast_zero, zero_sub, abs_neg, abs_of_nonneg hX] at h0
    exact h0
  have hover : f32_round num den < 0x7f800000 ↔
      (num : ℚ) / den / 2 ^ 149 < 2 ^ 128 - 2 ^ 103 := by
    have h1 := f32_round_overflow_iff num den hden
    rw [f32_scaled_max, f32_scaled_inf] at h1
    have h2 : f32_round num den < 0x7f800000 ↔
        2 * num < ((2 ^ 128 - 2 ^ 104) * 2 ^ 149 + 2 ^ 128 * 2 ^ 149) * den := by
      constructor
      · intro h
        by_contra hc
        have := h1.mpr (by omega)
        omega
      · intro h
        by_contra hc
        have := h1.mp (by omega)
        omega
    rw [h2, div_lt_iff₀ hU, div_lt_iff₀ hdq]
    have h3 : (2 * num < ((2 ^ 128 - 2 ^ 104) * 2 ^ 149 + 2 ^ 128 * 2 ^ 149) * den) ↔
        ((2 : ℚ) * num < (((2 ^ 128 - 2 ^ 104) * 2 ^ 149 + 2 ^ 128 * 2 ^ 149 : ℕ) : ℚ) * den) := by
      constructor
      · intro h; exact_mod_cast h
      · intro h; exact_mod_cast h
    rw [h3]
    have h4 : (((2 ^ 128 - 2 ^ 104) * 2 ^ 149 + 2 ^ 128 * 2 ^ 149 : ℕ) : ℚ) =
        2 * ((2 ^ 128 - 2 ^ 103) * 2 ^ 149) := by
      norm_num
    rw [h4]
    generalize ((2 : ℚ) ^ 128 - 2 ^ 103) = T
    generalize ((2 : ℚ) ^ 149) = U
    constructor <;> intro h <;> linarith
  refine ⟨hlt, ?_, hsign, ?_, ?_, ?_, ?_⟩
  · simp only [f32_is_nan, hmag, decide_eq_false_iff_not]
    omega
  · rw [hfin, hover, abs_sign_factor_mul s _ _ hX hU]
  · intro hf c hc
    rw [hval]
    simp only [f32_value]
    have hr := hfin.mp hf
    exact signed_nearest _ _ _ _ _ _ (sign_factor_cases s) (sign_factor_cases (f32_sign c))
      (Nat.cast_nonneg _) hX (f32_round_nearest num den (f32_mag c) hden hr) (hzero hr)
  · intro hf c hc hne heq
    rw [hpar]
    have hr := hfin.mp hf
    rw [hval] at hne heq
    simp only [f32_value] at hne heq
    rcases signed_tie _ _ _ _ _ _ (sign_factor_cases s) (sign_factor_cases (f32_sign c)) hU
        (Nat.cast_nonneg _) hX (hzero hr) hne heq with ⟨h1, h2⟩ | ⟨h1, h2⟩
    · apply f32_round_tie_even num den (f32_mag c) hden hr _ h2
      intro hcm
      exact h1 (by rw [hcm])
    · have hs0 : f32_scaled 0 = 0 := by decide
      apply f32_round_tie_even num den 0 hden hr
      · intro h0
        apply h1
        rw [← h0, hs0, Nat.cast_zero]
      · rw [hs0, Nat.cast_zero]
        exact h2
  · intro c hc hcx
    have hcabs : |f32_value c| ≤ (2 ^ 128 - 2 ^ 104 : ℚ) := by
      simp only [f32_value]
      rw [abs_sign_factor_mul _ _ _ (Nat.cast_nonneg _) hU, div_le_iff₀ hU]
      simp only [f32_is_finite, decide_eq_true_eq] at hc
      have hle : f32_scaled (f32_mag c) ≤ f32_scaled 0x7f7fffff :=
        f32_scaled_strictMono.monotone (by omega)
      rw [f32_scaled_max] at hle
      have hleq : ((f32_scaled (f32_mag c) : ℕ) : ℚ) ≤
          (((2 ^ 128 - 2 ^ 104) * 2 ^ 149 : ℕ) : ℚ) := by exact_mod_cast hle
      refine le_trans hleq ?_
      norm_num
    have hf : f32_is_finite (s * 0x80000000 + f32_round num den) = true := by
      rw [hfin, hover, ← abs_sign_factor_mul s _ _ hX hU, ← hcx]
      refine lt_of_le_of_lt hcabs ?_
      norm_num
    refine ⟨hf, ?_⟩
    have hr := hfin.mp hf
    have hnear : |f32_value (s * 0x80000000 + f32_round num den) -
        (if s = 1 then -1 else 1) * ((num : ℚ) / den) / 2 ^ 149| ≤
        |f32_value c - (if s = 1 then -1 else 1) * ((num : ℚ) / den) / 2 ^ 149| := by
      rw [hval]
      simp only [f32_value]
      exact signed_nearest _ _ _ _ _ _ (sign_factor_cases s) (sign_factor_cases (f32_sign c))
        (Nat.cast_nonneg _) hX (f32_round_nearest num den (f32_mag c) hden hr) (hzero hr)
    rw [hcx, sub_self, abs_zero] at hnear
    have := abs_nonpos_iff.mp hnear
    linarith

theorem f32_value_of (b s m : Nat) (hs : f32_sign b = s) (hm : f32_scaled (f32_mag b) = m) :
    f32_value b = (if s = 1 then -1 else 1) * (m : ℚ) / 2 ^ 149 := by
  simp only [f32_value, hs, hm]

theorem f32_test_values :
    f32_value 0xbf000000 = -1 / 2 ∧ f32_value 0x3f000000 = 1 / 2 ∧
    f32_value 0xbf800000 = -1 ∧ f32_value 0x3fa00000 = 5 / 4 ∧
    f32_value 0x40200000 = 5 / 2 := by
  refine ⟨?_, ?_, ?_, ?_, ?_⟩
  · rw [f32_value_of 0xbf000000 1 (2 ^ 148) (by decide) (by decide)]; norm_num
  · rw [f32_value_of 0x3f000000 0 (2 ^ 148) (by decide) (by decide)]; norm_num
  · rw [f32_value_of 0xbf800000 1 (2 ^ 149) (by decide) (by decide)]; norm_num
  · rw [f32_value_of 0x3fa00000 0 (5 * 2 ^ 147) (by decide) (by decide)]; norm_num
  · rw [f32_value_of 0x40200000 0 (5 * 2 ^ 148) (by decide) (by decide)]; norm_num

/-! ## The claim on the generated division function -/

/-- C9: the function `tests/divr_f.c` generates (enter-abi, load two float
arguments into F0 and F1, `divr_f F0, F0, F1`, leave-abi, `retr_f F0`) returns
the quotient of its first argument by its second, bit for bit.  For finite
arguments with a non-zero divisor the returned pattern is never a NaN, its sign
bit is the exclusive or of the two sign bits, it is infinite exactly when the
exact quotient reaches `2^128 - 2^103`, and otherwise it denotes the finite
single-precision number nearest to the exact quotient, with an even last bit
when two are equally near; so it is the exact quotient whenever that is a
single-precision number.  On the patterns of `-0.5f, 0.5f` it returns the
pattern of `-1.0f`, and on those of `1.25f, 0.5f` that of `2.5f`. -/
theorem divr_f_returns_quotient (regs : FRegs) :
    (∀ a b, a < 0x100000000 → b < 0x100000000 → f32_is_finite a = true →
      f32_is_finite b = true → f32_mag b ≠ 0 →
      ∃ r, run_f divr_f_run_test [a, b] regs = some r ∧ r < 0x100000000 ∧
        f32_is_nan r = false ∧ f32_sign r = (f32_sign a + f32_sign b) % 2 ∧
        (f32_is_finite r = true ↔ |f32_value a / f32_value b| < 2 ^ 128 - 2 ^ 103) ∧
        (f32_is_finite r = true → ∀ c, f32_is_finite c = true →
          |f32_value r - f32_value a / f32_value b| ≤
            |f32_value c - f32_value a / f32_value b|) ∧
        (f32_is_finite r = true → ∀ c, f32_is_finite c = true →
          f32_value c ≠ f32_value r →
          |f32_value c - f32_value a / f32_value b| =
            |f32_value r - f32_value a / f32_value b| →
          r % 2 = 0) ∧
        (∀ c, f32_is_finite c = true → f32_value c = f32_value a / f32_value b →
          f32_is_finite r = true ∧ f32_value r = f32_value a / f32_value b)) ∧
    f32_value 0xbf000000 = -1 / 2 ∧ f32_value 0x3f000000 = 1 / 2 ∧
    f32_value 0xbf800000 = -1 ∧ f32_value 0x3fa00000 = 5 / 4 ∧
    f32_value 0x40200000 = 5 / 2 ∧
    run_f divr_f_run_test [0xbf000000, 0x3f000000] regs = some 0xbf800000 ∧
    run_f divr_f_run_test [0x3fa00000, 0x3f000000] regs = some 0x40200000 := by
  obtain ⟨v1, v2, v3, v4, v5⟩ := f32_test_values
  refine ⟨?_, v1, v2, v3, v4, v5, ?_, ?_⟩
  · intro a b ha hb hfa hfb hnz
    exact ⟨f32_div a b, run_f_divr_f_run_test regs a b ha hb, f32_div_spec a b hfa hfb hnz⟩
  · rw [run_f_divr_f_run_test regs _ _ (by norm_num) (by norm_num)]
    have h : f32_div 0xbf000000 0x3f000000 = 0xbf800000 := by decide
    rw [h]
  · rw [run_f_divr_f_run_test regs _ _ (by norm_num) (by norm_num)]
    have h : f32_div 0x3fa00000 0x3f000000 = 0x40200000 := by decide
    rw [h]

/-- Witness for C9: dividing `1.0f` by `3.0f`, whose exact quotient is not a
single-precision number. -/
theorem divr_f_returns_quotient_witness :
    0x3f800000 < 0x100000000 ∧ 0x40400000 < 0x100000000 ∧
    f32_is_finite 0x3f800000 = true ∧ f32_is_finite 0x40400000 = true ∧
    f32_mag 0x40400000 ≠ 0 ∧
    ∃ r, run_f divr_f_run_test [0x3f800000, 0x40400000] (fun _ => 0) = some r ∧
      r < 0x100000000 ∧ f32_is_nan r = false ∧
      f32_sign r = (f32_sign 0x3f800000 + f32_sign 0x40400000) % 2 ∧
      (f32_is_finite r = true ↔
        |f32_value 0x3f800000 / f32_value 0x40400000| < 2 ^ 128 - 2 ^ 103) ∧
      (f32_is_finite r = true → ∀ c, f32_is_finite c = true →
        |f32_value r - f32_value 0x3f800000 / f32_value 0x40400000| ≤
          |f32_value c - f32_value 0x3f800000 / f32_value 0x40400000|) ∧
      (f32_is_finite r = true → ∀ c, f32_is_finite c = true →
        f32_value c ≠ f32_value r →
        |f32_value c - f32_value 0x3f800000 / f32_value 0x40400000| =
          |f32_value r - f32_value 0x3f800000 / f32_value 0x40400000| →
        r % 2 = 0) ∧
      (∀ c, f32_is_finite c = true →
        f32_value c = f32_value 0x3f800000 / f32_value 0x40400000 →
        f32_is_finite r = true ∧
          f32_value r = f32_value 0x3f800000 / f32_value 0x40400000) :=
  ⟨by decide, by decide, by decide, by decide, by decide,
    (divr_f_returns_quotient (fun _ => 0)).1 0x3f800000 0x40400000 (by decide) (by decide)
      (by decide) (by decide) (by decide)⟩

end Lightening
